import Mathlib

/-!
Verification development for the committee-schedule data pipeline
(`scripts/build-static-data.js` and `scripts/fetch.js`).

The JavaScript source is shallowly embedded: strings are Lean `String`s
(lists of characters), JS objects with the fixed record shape become a
structure whose absent fields are the empty string (JS code only ever
distinguishes fields by truthiness, where both `undefined` and `""` are
falsy; the one place this is visible, `searchText` carried through a
merge spread, is irrelevant to every property proved here), and the few
host facilities the scripts touch (`Date`, `JSON.parse`,
`localeCompare`) are modelled explicitly with the modelling choices
documented at each definition.
-/

/-- Character class of JavaScript `\s` (whitespace as matched by regexps
and `String.prototype.trim`): ASCII whitespace, NBSP, and the Unicode
space/line separators. -/
def isJsWs (c : Char) : Bool :=
  c = ' ' || c = '\t' || c = '\n' || c = '\r' || c.val = 0x0b || c.val = 0x0c ||
  c.val = 0xA0 || c.val = 0x1680 ||
  (0x2000 ≤ c.val && c.val ≤ 0x200A) ||
  c.val = 0x2028 || c.val = 0x2029 || c.val = 0x202F || c.val = 0x205F ||
  c.val = 0x3000 || c.val = 0xFEFF

/-- Character class of the regexp `[\s​]` used by `norm` in
`build-static-data.js`: JS whitespace plus the zero-width space. -/
def isNormWs (c : Char) : Bool :=
  isJsWs c || c.val = 0x200B

/-- One step of a global regexp replacement of whitespace runs with a
single space: collapses every maximal run of characters satisfying `p`.
The boolean argument records whether the previous character was part of
such a run. -/
def collapseBy (p : Char → Bool) : Bool → List Char → List Char
  | _, [] => []
  | prevWs, c :: rest =>
    if p c then
      if prevWs then collapseBy p true rest
      else ' ' :: collapseBy p true rest
    else c :: collapseBy p false rest

/-- `String.prototype.trim` on a character list: drop JS whitespace from
both ends. -/
def jsTrimList (l : List Char) : List Char :=
  ((l.dropWhile isJsWs).reverse.dropWhile isJsWs).reverse

/-- `norm` from `build-static-data.js` (line 17): replace NBSP by a
space, collapse runs of `[\s​]` to single spaces, trim. -/
def normChars (l : List Char) : List Char :=
  jsTrimList (collapseBy isNormWs false (l.map fun c => if c.val = 0xA0 then ' ' else c))

/-- `norm(value)` on strings (non-string inputs, which yield `""` in the
source, are outside the embedding). -/
def norm (s : String) : String :=
  ⟨normChars s.data⟩

/-- JS `a || b` on strings: the empty string is the only falsy string. -/
def jsOr (a b : String) : String :=
  if a = "" then b else a

/-- `String.prototype.toLowerCase`, restricted to per-character lowering
(exact for the ASCII range this data uses). -/
def lowerStr (s : String) : String :=
  ⟨s.data.map Char.toLower⟩

/-- Replacement step of the bracket-to-space rewrite in `parseClock`. -/
def replaceBrackets (l : List Char) : List Char :=
  l.map fun c => if c = '(' || c = ')' || c = '[' || c = ']' then ' ' else c

/-- Global case-insensitive replacement of the literal patterns `a.m.` /
`p.m.` by `AM` / `PM` (`match.toUpperCase().replace` dropping the dots),
as in `parseClock` of `build-static-data.js`. -/
def ampmReplace : List Char → List Char
  | [] => []
  | c :: '.' :: m :: '.' :: r =>
    if (c = 'a' || c = 'A') && (m = 'm' || m = 'M') then
      'A' :: 'M' :: ampmReplace r
    else if (c = 'p' || c = 'P') && (m = 'm' || m = 'M') then
      'P' :: 'M' :: ampmReplace r
    else c :: ampmReplace ('.' :: m :: '.' :: r)
  | c :: rest => c :: ampmReplace rest

/-- `parseClock(value)` from `build-static-data.js` (line 22). -/
def parseClock (s : String) : String :=
  let normalized := norm s
  if normalized = "" then "" else
  let cleaned : List Char :=
    ampmReplace (jsTrimList (collapseBy isJsWs false (replaceBrackets normalized.data)))
  ⟨jsTrimList (collapseBy isJsWs false cleaned)⟩

/-- `toTwoDigits(input)` (line 35): pad the decimal form to two digits
with leading zeros, for the natural numbers it is applied to. -/
def toTwoDigits (n : Nat) : String :=
  if n < 10 then "0" ++ toString n else toString n

/-- `parseInt(d, 10)` on a nonempty run of ASCII digits. -/
def parseIntNat (l : List Char) : Nat :=
  l.foldl (fun acc c => acc * 10 + (c.val.toNat - '0'.toNat)) 0

/-- ASCII digit test (`\d` in a JS regexp). -/
def isDig (c : Char) : Bool :=
  '0' ≤ c && c ≤ '9'

/-- Does the pattern `\d{4}-\d{2}-\d{2}` match at the head of `l`? -/
def isoShapeAt : List Char → Bool
  | a :: b :: c :: d :: '-' :: e :: f :: '-' :: g :: h :: _ =>
    isDig a && isDig b && isDig c && isDig d && isDig e && isDig f && isDig g && isDig h
  | _ => false

/-- Unanchored test of the regexp `/\d{4}-\d{2}-\d{2}/` (used by `toIso`
on the date argument): does the pattern match anywhere in `l`? -/
def hasIsoSub : List Char → Bool
  | [] => false
  | c :: rest => isoShapeAt (c :: rest) || hasIsoSub rest

/-- Anchored test of the regexp `/^\d{4}-\d{2}-\d{2}$/` (used by
`normalizeSenateDate` and by `parseSenateDate` in `fetch.js`). -/
def isIsoAnchored (s : String) : Bool :=
  isoShapeAt s.data && s.data.length = 10

/-- Result of matching `/(\d{1,2})(?::(\d{2}))?\s*(AM|PM)?/i`: the hour
digits' value, the optional minute digits' value, and the optional
meridiem (`some true` = PM, `some false` = AM). -/
def clockMatchAt (l : List Char) : Nat × Option Nat × Option Bool :=
  let takeHour : List Char × List Char :=
    match l with
    | a :: b :: r => if isDig b then ([a, b], r) else ([a], b :: r)
    | a :: r => ([a], r)
    | [] => ([], [])
  let hour := parseIntNat takeHour.1
  let afterMin : Option Nat × List Char :=
    match takeHour.2 with
    | ':' :: a :: b :: r =>
      if isDig a && isDig b then (some (parseIntNat [a, b]), r)
      else (none, ':' :: a :: b :: r)
    | r => (none, r)
  let afterWs := afterMin.2.dropWhile isJsWs
  let mer : Option Bool :=
    match afterWs with
    | a :: m :: _ =>
      if (a = 'A' || a = 'a') && (m = 'M' || m = 'm') then some false
      else if (a = 'P' || a = 'p') && (m = 'M' || m = 'm') then some true
      else none
    | _ => none
  (hour, afterMin.1, mer)

/-- Leftmost match of `/(\d{1,2})(?::(\d{2}))?\s*(AM|PM)?/i`: scan to the
first digit and match there (every component after the hour digits is
optional, so the match always succeeds at the first digit). -/
def clockFind : List Char → Option (Nat × Option Nat × Option Bool)
  | [] => none
  | c :: rest => if isDig c then some (clockMatchAt (c :: rest)) else clockFind rest

/-- `toIso(date, time)` from `build-static-data.js` (line 39). -/
def toIso (date time : String) : String :=
  let day := norm date
  if !(hasIsoSub day.data) then "" else
  if time = "" then day ++ "T00:00:00" else
  match clockFind (norm time).data with
  | none => day ++ "T00:00:00"
  | some (hourRaw, minutesRaw, meridiem) =>
    let hour := if meridiem = some true && hourRaw < 12 then hourRaw + 12
                else if meridiem = some false && hourRaw = 12 then 0
                else hourRaw
    let minutes := minutesRaw.getD 0
    day ++ "T" ++ toTwoDigits hour ++ ":" ++ toTwoDigits minutes ++ ":00"

/-- Gregorian leap-year test. -/
def isLeap (y : Int) : Bool :=
  (y % 4 = 0 && y % 100 ≠ 0) || y % 400 = 0

/-- Days in a month (1–12). -/
def daysInMonth (m : Nat) (y : Int) : Nat :=
  if m = 2 then (if isLeap y then 29 else 28)
  else if m = 4 || m = 6 || m = 9 || m = 11 then 30
  else 31

/-- Days from the civil epoch 1970-01-01 to year `y`, month `m` (1–12),
day `d` (Howard Hinnant's `days_from_civil`). -/
def daysFromCivil (y : Int) (m d : Nat) : Int :=
  let y' : Int := if m ≤ 2 then y - 1 else y
  let era : Int := y'.fdiv 400
  let yoe : Int := y' - era * 400
  let mp : Int := if m > 2 then (m : Int) - 3 else (m : Int) + 9
  let doy : Int := (153 * mp + 2).fdiv 5 + (d : Int) - 1
  let doe : Int := yoe * 365 + yoe.fdiv 4 - yoe.fdiv 100 + doy
  era * 146097 + doe - 719468

/-- Civil date (year, month, day) of a day count from 1970-01-01
(Howard Hinnant's `civil_from_days`). -/
def civilFromDays (z : Int) : Int × Nat × Nat :=
  let z' := z + 719468
  let era : Int := z'.fdiv 146097
  let doe : Int := z' - era * 146097
  let yoe : Int := (doe - doe.fdiv 1460 + doe.fdiv 36524 - doe.fdiv 146096).fdiv 365
  let y : Int := yoe + era * 400
  let doy : Int := doe - (365 * yoe + yoe.fdiv 4 - yoe.fdiv 100)
  let mp : Int := (5 * doy + 2).fdiv 153
  let d : Int := doy - (153 * mp + 2).fdiv 5 + 1
  let m : Int := if mp < 10 then mp + 3 else mp - 9
  (if m ≤ 2 then y + 1 else y, m.toNat, d.toNat)

/-- Decimal digit character of `n % 10`. -/
def digitChar (n : Nat) : Char :=
  match n % 10 with
  | 0 => '0'
  | 1 => '1'
  | 2 => '2'
  | 3 => '3'
  | 4 => '4'
  | 5 => '5'
  | 6 => '6'
  | 7 => '7'
  | 8 => '8'
  | _ => '9'

/-- Two zero-padded decimal digits (exact for `n < 100`, which covers
every month and day `toISOString` prints). -/
def pad2Digits (n : Nat) : List Char :=
  [digitChar (n / 10), digitChar n]

/-- Four zero-padded decimal digits (exact for `y < 10000`; the embedded
`Date` model only produces years in that range up to the one-day
timezone shift, so the extended `+YYYYYY` form of `toISOString` never
arises, see `parseYearStr`). -/
def pad4Digits (y : Nat) : List Char :=
  [digitChar (y / 1000), digitChar (y / 100), digitChar (y / 10), digitChar y]

/-- First ten characters of `Date.prototype.toISOString` for an epoch
given in minutes: the UTC calendar date `YYYY-MM-DD`. -/
def isoSlice10 (epochMin : Int) : String :=
  let c := civilFromDays (epochMin.fdiv 1440)
  ⟨pad4Digits c.1.toNat ++ '-' :: pad2Digits c.2.1 ++ '-' :: pad2Digits c.2.2⟩

/-- Helper for `stripTrailingParen`: given the characters before the
final `)` in right-to-left order, find the content of the leftmost `(`
that has no `)` between it and the end (the start of the leftmost match
of `/\s*\([^)]*\)$/`), returning the reversed remainder before it. -/
def scanOpenParen : List Char → Option (List Char)
  | [] => none
  | ')' :: _ => none
  | '(' :: r =>
    match scanOpenParen r with
    | some after => some after
    | none => some r
  | _ :: r => scanOpenParen r

/-- Single (non-global) replacement of `/\s*\([^)]*\)$/` with `""`: strip
one trailing parenthesised group together with the whitespace before it. -/
def stripTrailingParen (l : List Char) : List Char :=
  match l.reverse with
  | ')' :: rest =>
    match scanOpenParen rest with
    | some after => (after.dropWhile isJsWs).reverse
    | none => l
  | _ => l

/-- JS word character (`\w`), for `\b` boundaries. -/
def isWordChar (c : Char) : Bool :=
  ('A' ≤ c && c ≤ 'Z') || ('a' ≤ c && c ≤ 'z') || isDig c || c = '_'

/-- Case-insensitive match of a literal ASCII string at the head of `l`,
returning the remainder. -/
def matchCI : List Char → List Char → Option (List Char)
  | [], l => some l
  | _ :: _, [] => none
  | p :: ps, c :: cs => if c.toLower = p.toLower then matchCI ps cs else none

/-- Single replacement of `/\bWeek of\b/i` with `""`.  The boolean says
whether the previous character was a word character (for the leading
`\b`); the trailing `\b` requires a non-word character or the end after
the match. -/
def replaceWeekOf (prevWord : Bool) : List Char → List Char
  | [] => []
  | c :: rest =>
    (if !prevWord then
       match matchCI "week of".data (c :: rest) with
       | some r =>
         match r with
         | [] => some r
         | d :: _ => if isWordChar d then none else some r
       | none => none
     else none).getD (c :: replaceWeekOf (isWordChar c) rest)

/-- Single replacement of `/\bWeek\s+\d+\b/i` with `""`. -/
def replaceWeekNum (prevWord : Bool) : List Char → List Char
  | [] => []
  | c :: rest =>
    (if !prevWord then
       match matchCI "week".data (c :: rest) with
       | some r =>
         let ws := r.takeWhile isJsWs
         let r2 := r.drop ws.length
         let ds := r2.takeWhile isDig
         if ws ≠ [] && ds ≠ [] then
           let r3 := r2.drop ds.length
           match r3 with
           | [] => some r3
           | d :: _ => if isWordChar d then none else some r3
         else none
       | none => none
     else none).getD (c :: replaceWeekNum (isWordChar c) rest)

/-- Single anchored replacement of `/^[A-Z]+,?\s+/i` with `""` (the
leading-weekday strip in `parseSenateDate`): a leading run of letters,
an optional comma, then at least one whitespace character. -/
def dropWeekday (l : List Char) : List Char :=
  let letters := l.takeWhile Char.isAlpha
  if letters = [] then l else
  let r1 := l.drop letters.length
  let r2 := match r1 with
            | ',' :: t => t
            | _ => r1
  let ws := r2.takeWhile isJsWs
  if ws = [] then l else r2.drop ws.length

/-- Optional group `(?:,?\s*(\d{4}))?` after the day digits: an optional
comma, any whitespace, then exactly four digits (a longer digit run
still matches, contributing its first four digits). -/
def yearGroup (l : List Char) : Option (List Char) :=
  let l1 := match l with
            | ',' :: t => t
            | _ => l
  let l2 := l1.dropWhile isJsWs
  let ds := l2.takeWhile isDig
  if ds.length ≥ 4 then some (ds.take 4) else none

/-- Leftmost match of `/([A-Za-z]+)\s+(\d{1,2})(?:,?\s*(\d{4}))?/` with a
month-token character class given by `isTok`: returns the matched token
run, the (at most two) day digits, and the optional year digits.  The
fuel argument (the scan position bound) makes the recursion structural. -/
def mdYMatchGo (isTok : Char → Bool) : Nat → List Char → Option (List Char × List Char × Option (List Char))
  | 0, _ => none
  | _, [] => none
  | fuel + 1, c :: rest =>
    if isTok c then
      let run := (c :: rest).takeWhile isTok
      let after := (c :: rest).drop run.length
      let ws := after.takeWhile isJsWs
      let digs := (after.drop ws.length).takeWhile isDig
      if ws ≠ [] && digs ≠ [] then
        let day := digs.take 2
        let afterDay := (after.drop ws.length).drop day.length
        some (run, day, yearGroup afterDay)
      else mdYMatchGo isTok fuel after
    else mdYMatchGo isTok fuel rest

/-- Leftmost `<Month> <Day>[, <Year>]` match with month class `[A-Za-z]+`
(the `build-static-data.js` pattern). -/
def mdYMatch (l : List Char) : Option (List Char × List Char × Option (List Char)) :=
  mdYMatchGo Char.isAlpha l.length l

/-- Month number from the first three letters of a month token, modelling
V8's keyword lookup in the legacy date parser (month names and their
usual abbreviations are recognised by their first three characters). -/
def monthFrom3 (l : List Char) : Option Nat :=
  match l.map Char.toLower with
  | 'j' :: 'a' :: 'n' :: _ => some 1
  | 'f' :: 'e' :: 'b' :: _ => some 2
  | 'm' :: 'a' :: 'r' :: _ => some 3
  | 'a' :: 'p' :: 'r' :: _ => some 4
  | 'm' :: 'a' :: 'y' :: _ => some 5
  | 'j' :: 'u' :: 'n' :: _ => some 6
  | 'j' :: 'u' :: 'l' :: _ => some 7
  | 'a' :: 'u' :: 'g' :: _ => some 8
  | 's' :: 'e' :: 'p' :: _ => some 9
  | 'o' :: 'c' :: 't' :: _ => some 10
  | 'n' :: 'o' :: 'v' :: _ => some 11
  | 'd' :: 'e' :: 'c' :: _ => some 12
  | _ => none

/-- Year named by a decimal year token, modelling the legacy parser's
two-digit-year adjustment (values below 50 map into the 2000s, values
from 50 to 99 into the 1900s) and rejecting tokens of more than four
digits.  Keeping years at most four digits means every date the model
produces prints as `\d{4}-\d{2}-\d{2}` under `isoSlice10`. -/
def parseYearStr (s : String) : Option Int :=
  if s.data ≠ [] && s.data.all isDig && s.data.length ≤ 4 then
    let v := parseIntNat s.data
    if v < 50 then some (2000 + v)
    else if v < 100 then some (1900 + v)
    else some v
  else none

/-- Model of V8's `new Date("<Month> <D>, <Y>")`: the string is parsed as
local time (midnight), so the epoch is the civil day count minus the
environment's UTC offset (`tzMin`, minutes east of UTC; +480 for
Asia/Manila).  Out-of-range days and unrecognised months give an invalid
date (`none`). -/
def jsDateEpochMin (tzMin : Int) (monthTok : String) (day : Nat) (yearStr : String) : Option Int :=
  match monthFrom3 monthTok.data, parseYearStr yearStr with
  | some m, some y =>
    if 1 ≤ day && day ≤ daysInMonth m y then
      some (daysFromCivil y m day * 1440 - tzMin)
    else none
  | _, _ => none

/-- `parseSenateDate(headerText, fallbackYear)` from
`build-static-data.js` (line 116), parameterised by the environment's
UTC offset in minutes (the source's result depends on the process's
local timezone through `new Date(...)` / `toISOString()`). -/
def parseSenateDate (tzMin : Int) (headerText : String) (fallbackYear : String := "") : String :=
  let cleaned := jsTrimList (replaceWeekNum false (replaceWeekOf false
    (stripTrailingParen (norm headerText).data)))
  if cleaned = [] then "" else
  match mdYMatch (dropWeekday cleaned) with
  | none => ""
  | some (monthName, dayDigits, yearDigits) =>
    let year : String := match yearDigits with
                         | some y => ⟨y⟩
                         | none => fallbackYear
    if year = "" then "" else
    match jsDateEpochMin tzMin ⟨monthName⟩ (parseIntNat dayDigits) year with
    | none => ""
    | some epochMin => isoSlice10 epochMin

/-- Lexicographic comparison on character lists by code point. -/
def charListLt : List Char → List Char → Bool
  | [], [] => false
  | [], _ :: _ => true
  | _ :: _, [] => false
  | a :: as, b :: bs =>
    if a.toNat < b.toNat then true
    else if b.toNat < a.toNat then false
    else charListLt as bs

/-- JS `<` on strings: lexicographic by UTF-16 code unit, which agrees
with code-point order on the basic-plane strings this data contains. -/
def strLt (a b : String) : Bool :=
  charListLt a.data b.data

/-- Environment facts the scripts obtain from the host: the local UTC
offset in minutes (east of UTC), the current run timestamp
(`new Date().toISOString()`), and a parse oracle for `new Date(s)` on
strings outside the explicitly modelled formats (used only by
`extractYearFromRecord`'s fallback), giving the epoch in minutes when
the host accepts the string. -/
structure JsEnv where
  tzMin : Int
  now : String
  dateParse : String → Option Int

/-- Canonical record shape flowing through `build-static-data.js`.  JS
objects are open maps; the embedding fixes the fields the script reads
or writes, with the empty string standing for an absent field (the
script only tests fields for truthiness, and `""` and `undefined` are
both falsy). -/
structure SenRecord where
  id : String := ""
  branch : String := ""
  committee : String := ""
  date : String := ""
  time : String := ""
  venue : String := ""
  agenda : String := ""
  status : String := ""
  notes : String := ""
  isoDate : String := ""
  source : String := ""
  dateLabel : String := ""
  displayDate : String := ""
  capturedAt : String := ""
  firstSeenAt : String := ""
  lastSeenAt : String := ""
  searchText : String := ""
  deriving DecidableEq, Repr

/-- The constant `SENATE_SOURCE`. -/
def SENATE_SOURCE : String := "Senate Weekly Schedule"

/-- `String(parsed.getFullYear())` for an epoch in minutes:
`getFullYear` is in local time, so the civil year of the epoch shifted
by the UTC offset. -/
def getFullYearStr (tzMin epochMin : Int) : String :=
  toString (civilFromDays ((epochMin + tzMin).fdiv 1440)).1

/-- Candidate scan of `extractYearFromRecord` (line 135): first a match
of `/^(\d{4})/` on the trimmed candidate, else the year of
`new Date(trimmed)` when the host accepts it. -/
def extractYearGo (env : JsEnv) : List String → String
  | [] => ""
  | c :: rest =>
    if c = "" then extractYearGo env rest else
    let trimmed : String := ⟨jsTrimList c.data⟩
    let four := trimmed.data.take 4
    if four.length = 4 && four.all isDig then ⟨four⟩
    else match env.dateParse trimmed with
         | some epochMin => getFullYearStr env.tzMin epochMin
         | none => extractYearGo env rest

/-- `extractYearFromRecord(record)` (line 135). -/
def extractYearFromRecord (env : JsEnv) (r : SenRecord) : String :=
  extractYearGo env [r.isoDate, r.capturedAt, r.firstSeenAt, r.lastSeenAt]

/-- `normalizeSenateDate(record)` (line 152). -/
def normalizeSenateDate (env : JsEnv) (r : SenRecord) : String :=
  let fallbackYear := extractYearFromRecord env r
  let direct := norm r.date
  if direct ≠ "" && isIsoAnchored direct then direct else
  let fromDirect := if direct ≠ "" then parseSenateDate env.tzMin direct fallbackYear else ""
  if fromDirect ≠ "" then fromDirect else
  let label := norm (jsOr r.dateLabel r.displayDate)
  if label ≠ "" && isIsoAnchored label then label else
  let fromLabel := if label ≠ "" then parseSenateDate env.tzMin label fallbackYear else ""
  if fromLabel ≠ "" then fromLabel else
  direct

/-- `senateHistoryKey(record)` (line 265). -/
def senateHistoryKey (env : JsEnv) (r : SenRecord) : String :=
  let committee := norm r.committee
  let time := parseClock r.time
  let iso := jsOr r.isoDate (toIso (normalizeSenateDate env r) time)
  if committee = "" || time = "" then "" else
  if iso ≠ "" then
    lowerStr (⟨iso.data.take 10⟩ ++ "|" ++ time ++ "|" ++ committee)
  else
    let fallbackDate := norm (jsOr r.date r.dateLabel)
    if fallbackDate = "" then ""
    else lowerStr (fallbackDate ++ "|" ++ time ++ "|" ++ committee)

/-- Dedup key of a record as the spec states it: the lowercased
`date|time|committee` string. -/
def recKey (r : SenRecord) : String :=
  lowerStr (r.date ++ "|" ++ r.time ++ "|" ++ r.committee)

/-- The `iso` value computed in `ingest` and `senateHistoryKey`:
`record.isoDate || toIso(normalizedDate, time)`. -/
def ingIso (env : JsEnv) (r : SenRecord) : String :=
  jsOr r.isoDate (toIso (normalizeSenateDate env r) (parseClock r.time))

/-- The merge key a record is ingested under, or `""` when `ingest`
drops it (empty normalized committee or time, or empty derived key).
This matches the guard plus the `senateHistoryKey` call on the record
with its normalized committee, time and derived ISO timestamp. -/
def ingestKey (env : JsEnv) (r : SenRecord) : String :=
  if norm r.committee = "" || parseClock r.time = "" then ""
  else senateHistoryKey env
    { r with committee := norm r.committee, time := parseClock r.time, isoDate := ingIso env r }

/-- The `base` object built by `ingest` (line 299). -/
def ingBase (env : JsEnv) (r : SenRecord) (seenAt : String) : SenRecord :=
  { r with
    committee := norm r.committee
    time := parseClock r.time
    venue := norm r.venue
    agenda := norm r.agenda
    notes := norm r.notes
    status := jsOr (norm (jsOr r.status "Scheduled")) "Scheduled"
    isoDate := ingIso env r
    date := if ingIso env r ≠ "" then ⟨(ingIso env r).data.take 10⟩
            else jsOr (normalizeSenateDate env r) (norm (jsOr r.date r.dateLabel))
    dateLabel := norm (jsOr r.dateLabel r.displayDate)
    source := jsOr r.source SENATE_SOURCE
    capturedAt := jsOr r.capturedAt (jsOr seenAt env.now) }

/-- `record.firstSeenAt || seenAt || now` (line 314). -/
def ingFirstSeen (env : JsEnv) (r : SenRecord) (seenAt : String) : String :=
  jsOr r.firstSeenAt (jsOr seenAt env.now)

/-- `record.lastSeenAt || seenAt || now` (line 315). -/
def ingLastSeen (env : JsEnv) (r : SenRecord) (seenAt : String) : String :=
  jsOr r.lastSeenAt (jsOr seenAt env.now)

/-- The `merged` object built when the key already exists (line 326):
the spread of `base` over `existing` with the field-level fallbacks and
the first/last-seen extremes. -/
def ingMerged (env : JsEnv) (r : SenRecord) (seenAt : String) (existing : SenRecord) :
    SenRecord :=
  let base := ingBase env r seenAt
  { base with
    agenda := jsOr base.agenda existing.agenda
    notes := jsOr base.notes existing.notes
    dateLabel := jsOr base.dateLabel existing.dateLabel
    capturedAt := jsOr base.capturedAt existing.capturedAt
    firstSeenAt := if existing.firstSeenAt ≠ "" && strLt existing.firstSeenAt (ingFirstSeen env r seenAt)
                   then existing.firstSeenAt else ingFirstSeen env r seenAt
    lastSeenAt := if existing.lastSeenAt ≠ "" && strLt (ingLastSeen env r seenAt) existing.lastSeenAt
                  then existing.lastSeenAt else ingLastSeen env r seenAt }

/-- The object stored when the key is new (line 318): `base` with the
first/last-seen stamps. -/
def ingNew (env : JsEnv) (r : SenRecord) (seenAt : String) : SenRecord :=
  { ingBase env r seenAt with
    firstSeenAt := ingFirstSeen env r seenAt, lastSeenAt := ingLastSeen env r seenAt }

/-- The `ingest` closure inside `mergeSenateHistory` (line 283), acting
on the accumulating key-to-record map.  JS `Map` iterates in insertion
order and `set` on an existing key updates in place, which an
association list with in-place update models exactly.  The source's
inline `let`s and two early returns are split into the named
definitions above (`ingestKey` folds the two guards into one empty-key
test). -/
def ingest (env : JsEnv) (m : List (String × SenRecord)) (r : SenRecord) (seenAt : String) :
    List (String × SenRecord) :=
  if ingestKey env r = "" then m else
  match m.lookup (ingestKey env r) with
  | none => m ++ [(ingestKey env r, ingNew env r seenAt)]
  | some existing =>
    m.map fun p => if p.1 = ingestKey env r then (ingestKey env r, ingMerged env r seenAt existing) else p

/-- The `seenAt` passed for a previous-run record (line 343):
`record.lastSeenAt || record.capturedAt || record.firstSeenAt || now`. -/
def prevSeenAt (env : JsEnv) (r : SenRecord) : String :=
  jsOr r.lastSeenAt (jsOr r.capturedAt (jsOr r.firstSeenAt env.now))

/-- The final fill applied to each map value (line 351):
`firstSeenAt: record.firstSeenAt || now, lastSeenAt: record.lastSeenAt || now`. -/
def finalFill (env : JsEnv) (r : SenRecord) : SenRecord :=
  { r with firstSeenAt := jsOr r.firstSeenAt env.now, lastSeenAt := jsOr r.lastSeenAt env.now }

/-- `mergeSenateHistory(current, previous)` (line 279). -/
def mergeSenateHistory (env : JsEnv) (current : List SenRecord)
    (previous : List SenRecord := []) : List SenRecord :=
  let m0 := previous.foldl (fun m r => ingest env m r (prevSeenAt env r)) []
  let m1 := current.foldl (fun m r => ingest env m r env.now) m0
  (m1.map Prod.snd).map (finalFill env)

def envUTC : JsEnv := ⟨0, "2026-01-01T00:00:00.000Z", fun _ => none⟩

def prevRec : SenRecord :=
  { committee := "Committee on Finance", date := "2025-08-12", time := "10:00 AM",
    venue := "Main Hall", agenda := "Budget", status := "Cancelled",
    isoDate := "2025-08-12T10:00:00",
    firstSeenAt := "2025-08-01T00:00:00.000Z", lastSeenAt := "2025-08-02T00:00:00.000Z" }

def currRec : SenRecord :=
  { committee := "Committee on Finance", date := "2025-08-12", time := "10:00 AM" }

/-- A scrape row with an empty committee (dropped by `ingest`). -/
def noCommitteeRec : SenRecord :=
  { date := "2025-08-12", time := "10:00 AM" }

/-- Records with no `isoDate`, for the comparator tiebreak. -/
def recA : SenRecord := { committee := "a" }

/-- See `recA`. -/
def recB : SenRecord := { committee := "B" }

/-- The dedup loop at the end of `deriveSenateRecordsFromHtml`
(line 230) and the `filter`-with-`seen`-set in `parseHouseWeeklyPrint`
(`fetch.js` line 176), generalised over the key function: keep the first
record for each key, in input order. -/
def dedupeByGo (key : α → String) (seen : List String) : List α → List α
  | [] => []
  | r :: rest =>
    if key r ∈ seen then dedupeByGo key seen rest
    else r :: dedupeByGo key (key r :: seen) rest

/-- Deduplication with an initially empty seen set. -/
def dedupeBy (key : α → String) (l : List α) : List α :=
  dedupeByGo key [] l

/-- The senate dedup key `date|time|committee` lowercased is exactly
`recKey`; the dedup pass over derived senate records. -/
def dedupeSenate (l : List SenRecord) : List SenRecord :=
  dedupeBy recKey l

/-- Specification-side restatement of first-occurrence deduplication:
keep the head, then dedup the tail with all records of the head's key
removed. -/
def dedupeSpec (key : α → String) : List α → List α
  | [] => []
  | r :: rest =>
    r :: dedupeSpec key (rest.filter fun x => key x ≠ key r)
termination_by l => l.length
decreasing_by
  simp only [List.length_cons]
  exact Nat.lt_succ_of_le (List.length_filter_le _ _)

/-- The comparator literal passed to `sort` in `sortRecords`
(line 410), parameterised by the host's `localeCompare` (`lc`). -/
def senComparator (lc : String → String → Int) (a b : SenRecord) : Int :=
  if a.isoDate ≠ "" && b.isoDate ≠ "" then
    if strLt a.isoDate b.isoDate then -1
    else if strLt b.isoDate a.isoDate then 1
    else lc a.committee b.committee
  else if a.isoDate = "" && b.isoDate ≠ "" then 1
  else if a.isoDate ≠ "" && b.isoDate = "" then -1
  else lc a.committee b.committee

/-- `sortRecords(records)` (line 410): `Array.prototype.sort` is a
stable comparison sort, so for a consistent comparator its output is the
stable sorted permutation of the input, which `List.insertionSort` with
the non-strict relation `comparator ≤ 0` computes. -/
def sortRecords (lc : String → String → Int) (records : List SenRecord) : List SenRecord :=
  records.insertionSort fun a b => senComparator lc a b ≤ 0

/-- One record of `decorateRecords(records)` (line 391). -/
def decorateRecord (r : SenRecord) : SenRecord :=
  { r with
    isoDate := jsOr r.isoDate (toIso r.date r.time),
    searchText := lowerStr (String.intercalate " "
      (([r.branch, r.committee, r.venue, r.agenda, r.status, r.notes].map norm).filter
        (· ≠ ""))) }

/-- `decorateRecords(records)` (line 391). -/
def decorateRecords (records : List SenRecord) : List SenRecord :=
  records.map decorateRecord

/-- JSON values, for the model of `JSON.parse`.  Numbers keep their raw
digits (their numeric value is irrelevant to the pipeline's
error-handling behaviour). -/
inductive Jvalue where
  | jnull : Jvalue
  | jbool : Bool → Jvalue
  | jnum : String → Jvalue
  | jstr : String → Jvalue
  | jarr : List Jvalue → Jvalue
  | jobj : List (String × Jvalue) → Jvalue
  deriving Repr

/-- JSON insignificant whitespace. -/
def isJsonWs (c : Char) : Bool :=
  c = ' ' || c = '\t' || c = '\n' || c = '\r'

/-- JSON string body after the opening quote: consume up to an unescaped
closing quote (escapes are resolved only as far as delimiting requires). -/
def jparseString : List Char → List Char → Option (List Char × List Char)
  | [], _ => none
  | '"' :: r, acc => some (acc.reverse, r)
  | '\\' :: c :: r, acc => jparseString r (c :: acc)
  | '\\' :: [], _ => none
  | c :: r, acc => jparseString r (c :: acc)

/-- JSON number after an optional leading minus: integer part (a single
zero or a nonzero-led digit run), optional fraction, optional exponent. -/
def jparseNumTail (l : List Char) : Option (List Char × List Char) :=
  let intPart : Option (List Char × List Char) :=
    match l with
    | '0' :: r => some (['0'], r)
    | c :: r => if isDig c && c ≠ '0' then
                  some (c :: r.takeWhile isDig, r.dropWhile isDig)
                else none
    | [] => none
  match intPart with
  | none => none
  | some (ds, r1) =>
    let frac : Option (List Char × List Char) :=
      match r1 with
      | '.' :: r2 =>
        let fd := r2.takeWhile isDig
        if fd = [] then none else some ('.' :: fd, r2.drop fd.length)
      | _ => some ([], r1)
    match frac with
    | none => none
    | some (fs, r3) =>
      match r3 with
      | e :: r4 =>
        if e = 'e' || e = 'E' then
          let r5 := match r4 with
                    | '+' :: t => t
                    | '-' :: t => t
                    | t => t
          let ed := r5.takeWhile isDig
          if ed = [] then none
          else some (ds ++ fs ++ [e] ++ ed, r5.drop ed.length)
        else some (ds ++ fs, e :: r4)
      | [] => some (ds ++ fs, [])

/-- Fueled recursive-descent JSON value parser, modelling `JSON.parse`
(`none` is a `SyntaxError`).  Array and object continuations recurse
through the value parser by re-prefixing the opening delimiter, so a
single fuel-structural function suffices; twice the input length plus
two is always enough fuel. -/
def jparseVal : Nat → List Char → Option (Jvalue × List Char)
  | 0, _ => none
  | fuel + 1, l =>
    match l.dropWhile isJsonWs with
    | 'n' :: 'u' :: 'l' :: 'l' :: r => some (.jnull, r)
    | 't' :: 'r' :: 'u' :: 'e' :: r => some (.jbool true, r)
    | 'f' :: 'a' :: 'l' :: 's' :: 'e' :: r => some (.jbool false, r)
    | '"' :: r => (jparseString r []).map fun p => (.jstr ⟨p.1⟩, p.2)
    | '-' :: r => (jparseNumTail r).map fun p => (.jnum ⟨'-' :: p.1⟩, p.2)
    | '\x5b' :: r =>
      (match r.dropWhile isJsonWs with
       | '\x5d' :: r2 => some (.jarr [], r2)
       | _ =>
         match jparseVal fuel r with
         | none => none
         | some (v, r1) =>
           match r1.dropWhile isJsonWs with
           | ',' :: r2 =>
             (match r2.dropWhile isJsonWs with
              | '\x5d' :: _ => none
              | _ =>
                match jparseVal fuel ('\x5b' :: r2) with
                | some (.jarr vs, r3) => some (.jarr (v :: vs), r3)
                | _ => none)
           | '\x5d' :: r2 => some (.jarr [v], r2)
           | _ => none)
    | '\x7b' :: r =>
      (match r.dropWhile isJsonWs with
       | '\x7d' :: r2 => some (.jobj [], r2)
       | '"' :: rk =>
         (match jparseString rk [] with
          | none => none
          | some (k, r1) =>
            match r1.dropWhile isJsonWs with
            | ':' :: r2 =>
              (match jparseVal fuel r2 with
               | none => none
               | some (v, r3) =>
                 match r3.dropWhile isJsonWs with
                 | ',' :: r4 =>
                   (match r4.dropWhile isJsonWs with
                    | '\x7d' :: _ => none
                    | _ =>
                      match jparseVal fuel ('\x7b' :: r4) with
                      | some (.jobj ms, r5) => some (.jobj ((⟨k⟩, v) :: ms), r5)
                      | _ => none)
                 | '\x7d' :: r4 => some (.jobj [(⟨k⟩, v)], r4)
                 | _ => none)
            | _ => none)
       | _ => none)
    | c :: r =>
      if isDig c then (jparseNumTail (c :: r)).map fun p => (.jnum ⟨p.1⟩, p.2)
      else none
    | [] => none

/-- `JSON.parse(s)`: a full-input parse, `none` modelling the thrown
`SyntaxError`. -/
def jsonParse (s : String) : Option Jvalue :=
  match jparseVal (2 * s.data.length + 2) s.data with
  | some (v, rest) => if rest.dropWhile isJsonWs = [] then some v else none
  | none => none

/-- Result of `fs.readFile`: the file's text, or a failure with an error
code (`"ENOENT"` when the file does not exist). -/
inductive FsRead where
  | ok : String → FsRead
  | fsError : String → FsRead

/-- `readJson(filePath)` from `build-static-data.js` (line 66) as a
function of the file-read outcome: `Except.error` models an exception
propagating out of the function (only `ENOENT` is caught; an empty or
whitespace-only file yields `null`). -/
def readJson (fr : FsRead) : Except String (Option Jvalue) :=
  match fr with
  | .ok raw =>
    let trimmed : String := ⟨jsTrimList raw.data⟩
    if trimmed = "" then .ok none
    else match jsonParse trimmed with
         | some v => .ok (some v)
         | none => .error "SyntaxError"
  | .fsError code =>
    if code = "ENOENT" then .ok none else .error code

/-- The history read in `main` (line 435):
`(await readJson(SENATE_HISTORY_FILE)) || []` guarded by
`Array.isArray`.  An error from `readJson` propagates to the top-level
`main().catch`, which logs and sets `process.exitCode = 1` — the run
fails.  A successful read that is not an array yields the empty
baseline. -/
def mainHistoryBaseline (fr : FsRead) : Except String (List Jvalue) :=
  match readJson fr with
  | .error e => .error e
  | .ok v =>
    .ok (match v with
         | some (.jarr items) => items
         | _ => [])

/-- Did the call throw? -/
def isThrown : Except String (List Jvalue) → Bool
  | .error _ => true
  | .ok _ => false

/-- Did `readJson` yield `null` (no prior history) without throwing? -/
def readGaveNull : Except String (Option Jvalue) → Bool
  | .ok none => true
  | _ => false

namespace Fetch

/-- `norm(s)` from `fetch.js` (line 40): NBSP to space, collapse `\s+`
runs (without the zero-width-space class of the other script), trim. -/
def norm (s : String) : String :=
  ⟨jsTrimList (collapseBy isJsWs false (s.data.map fun c => if c.val = 0xA0 then ' ' else c))⟩

/-- Ordinal suffix `(st|nd|rd|th)` case-insensitively at the head. -/
def ordinalSuffix : List Char → Option (List Char)
  | a :: b :: r =>
    let p := (a.toLower, b.toLower)
    if p = ('s', 't') || p = ('n', 'd') || p = ('r', 'd') || p = ('t', 'h') then some r
    else none
  | _ => none

/-- Global replacement of the ordinal pattern (one or two digits,
`st|nd|rd|th`, both inside `\b` boundaries, case-insensitive) by the
bare digits, used by `parseSenateDate` in `fetch.js`.  The boolean
tracks whether the previous character of the original string was a word
character; scanning resumes after a match, as a JS global replace does.
Fuel (any bound on the scan length) makes the recursion structural. -/
def stripOrdinalsGo : Nat → Bool → List Char → List Char
  | 0, _, l => l
  | _ + 1, _, [] => []
  | fuel + 1, prevWord, c :: rest =>
    (if !prevWord && isDig c then
       let try2 : Option (List Char × List Char) :=
         match rest with
         | d :: r2 =>
           if isDig d then (ordinalSuffix r2).map fun r3 => ([c, d], r3)
           else none
         | [] => none
       let tryMatch : Option (List Char × List Char) :=
         match try2 with
         | some m => some m
         | none => (ordinalSuffix rest).map fun r3 => ([c], r3)
       match tryMatch with
       | some (digits, r3) =>
         match r3 with
         | [] => some (digits, r3)
         | d :: _ => if isWordChar d then none else some (digits, r3)
       | none => none
     else none)
    |>.elim (c :: stripOrdinalsGo fuel (isWordChar c) rest)
      (fun m => m.1 ++ stripOrdinalsGo fuel true m.2)

/-- The ordinal strip with sufficient fuel. -/
def stripOrdinals (l : List Char) : List Char :=
  stripOrdinalsGo l.length false l

/-- `MONTH_NAME_MAP` (`fetch.js` line 430): month number for a
lowercased token (full names plus the listed abbreviations). -/
def monthNameMap (s : String) : Option Nat :=
  if s = "jan" || s = "january" then some 1
  else if s = "feb" || s = "february" then some 2
  else if s = "mar" || s = "march" then some 3
  else if s = "apr" || s = "april" then some 4
  else if s = "may" then some 5
  else if s = "jun" || s = "june" then some 6
  else if s = "jul" || s = "july" then some 7
  else if s = "aug" || s = "august" then some 8
  else if s = "sep" || s = "sept" || s = "september" then some 9
  else if s = "oct" || s = "october" then some 10
  else if s = "nov" || s = "november" then some 11
  else if s = "dec" || s = "december" then some 12
  else none

/-- Month-token class `[A-Za-z\.]` of the `fetch.js` date pattern. -/
def isMonthTokChar (c : Char) : Bool :=
  c.isAlpha || c = '.'

/-- The trailing-dot strip applied to the matched month token. -/
def dropTrailingDot (l : List Char) : List Char :=
  match l.reverse with
  | '.' :: r => r.reverse
  | _ => l

/-- `parseSenateDate(headerText)` from `fetch.js` (line 460),
parameterised by the UTC offset, the current year
(`new Date().getFullYear()`), and the host parse oracle for the
`new Date(cleaned)` fallback on arbitrary strings. -/
def parseSenateDate (tzMin : Int) (currentYear : Nat) (dateParse : String → Option Int)
    (headerText : String) : String :=
  let cleaned : String :=
    ⟨stripOrdinals (stripTrailingParen (norm headerText).data)⟩
  if cleaned = "" then "" else
  if isIsoAnchored cleaned then cleaned else
  match mdYMatchGo isMonthTokChar cleaned.data.length (dropWeekday cleaned.data) with
  | none =>
    (match dateParse cleaned with
     | none => ""
     | some epochMin => isoSlice10 epochMin)
  | some (rawMonth, dayDigits, yearDigits) =>
    match monthNameMap (lowerStr ⟨dropTrailingDot rawMonth⟩) with
    | none => ""
    | some m =>
      let yearStr : String := match yearDigits with
                              | some y => ⟨y⟩
                              | none => toString currentYear
      match parseYearStr yearStr with
      | none => ""
      | some y =>
        if 1 ≤ parseIntNat dayDigits && parseIntNat dayDigits ≤ daysInMonth m y then
          isoSlice10 (daysFromCivil y m (parseIntNat dayDigits) * 1440 - tzMin)
        else ""

/-- A row of the House weekly-print table (`fetch.js` line 161). -/
structure HouseRow where
  date : String := ""
  time : String := ""
  committee : String := ""
  subject : String := ""
  venue : String := ""
  source : String := ""
  deriving DecidableEq, Repr

/-- `keyOf(r)` (`fetch.js` line 43). -/
def keyOf (r : HouseRow) : String :=
  lowerStr (r.date ++ "|" ++ r.time ++ "|" ++ r.committee)

/-- The dedup filter at the end of `parseHouseWeeklyPrint`
(`fetch.js` line 176). -/
def dedupeHouse (rows : List HouseRow) : List HouseRow :=
  dedupeBy keyOf rows

end Fetch

/-- Model of `String.prototype.localeCompare` under the default en-US
(ICU) locale, restricted to ASCII: the primary comparison is
case-insensitive, with a code-point tiebreak between strings equal up to
case (so, as under ICU, `"a"` sorts before `"B"`). -/
def localeCompareEn (a b : String) : Int :=
  let la : List Char := a.data.map Char.toLower
  let lb : List Char := b.data.map Char.toLower
  if charListLt la lb then -1
  else if charListLt lb la then 1
  else if charListLt a.data b.data then -1
  else if charListLt b.data a.data then 1
  else 0

/-- Is the head (if any) a non-`p` character? -/
def headNot (p : Char → Bool) : List Char → Bool
  | [] => true
  | c :: _ => !p c

/-- Every `p`-character is a single space: it equals `' '` and is not
followed by another `p`-character (a trailing space is allowed). -/
def wsSingle (p : Char → Bool) : List Char → Bool
  | [] => true
  | c :: rest =>
    (if p c then c = ' ' && headNot p rest else true) && wsSingle p rest

theorem mem_collapseBy {p : Char → Bool} {b : Bool} {l : List Char} {c : Char}
    (h : c ∈ collapseBy p b l) : c = ' ' ∨ (c ∈ l ∧ p c = false) := by
  induction l generalizing b with
  | nil => simp [collapseBy] at h
  | cons d rest ih =>
    simp only [collapseBy] at h
    by_cases hd : p d = true
    · simp only [hd, if_true] at h
      by_cases hb : b
      · subst hb
        simp only [if_true] at h
        rcases ih h with h' | h'
        · exact Or.inl h'
        · exact Or.inr ⟨List.mem_cons_of_mem _ h'.1, h'.2⟩
      · simp only [Bool.not_eq_true] at hb
        subst hb
        simp only [Bool.false_eq_true, if_false, List.mem_cons] at h
        rcases h with h | h
        · exact Or.inl h
        · rcases ih h with h' | h'
          · exact Or.inl h'
          · exact Or.inr ⟨List.mem_cons_of_mem _ h'.1, h'.2⟩
    · simp only [Bool.not_eq_true] at hd
      simp only [hd, Bool.false_eq_true, if_false, List.mem_cons] at h
      rcases h with h | h
      · subst h
        exact Or.inr ⟨List.mem_cons_self _ _, hd⟩
      · rcases ih h with h' | h'
        · exact Or.inl h'
        · exact Or.inr ⟨List.mem_cons_of_mem _ h'.1, h'.2⟩

theorem collapseBy_flagTrue_head {p : Char → Bool} {l : List Char} :
    headNot p (collapseBy p true l) = true := by
  induction l with
  | nil => rfl
  | cons d rest ih =>
    simp only [collapseBy]
    by_cases hd : p d = true
    · simpa [hd] using ih
    · simp only [Bool.not_eq_true] at hd
      simp [hd, headNot]

theorem collapseBy_flagFalse_head {p : Char → Bool} {l : List Char}
    (h : headNot p l = true) : collapseBy p false l = l.headD ' ' :: (collapseBy p false l).tail
      ∨ l = [] := by
  cases l with
  | nil => exact Or.inr rfl
  | cons d rest =>
    simp only [headNot, Bool.not_eq_true'] at h
    simp [collapseBy, h]

theorem wsSingle_collapseBy {p : Char → Bool} {b : Bool} {l : List Char} :
    wsSingle p (collapseBy p b l) = true := by
  induction l generalizing b with
  | nil => rfl
  | cons d rest ih =>
    simp only [collapseBy]
    by_cases hd : p d = true
    · by_cases hb : b
      · subst hb
        simpa [hd] using ih
      · simp only [Bool.not_eq_true] at hb
        subst hb
        simp only [hd, if_true, Bool.false_eq_true, if_false]
        simp only [wsSingle, Bool.and_eq_true]
        refine ⟨?_, ih⟩
        by_cases hsp : p ' ' = true
        · simpa [hsp] using collapseBy_flagTrue_head
        · simp only [Bool.not_eq_true] at hsp
          simp [hsp]
    · simp only [Bool.not_eq_true] at hd
      simp only [hd, Bool.false_eq_true, if_false]
      simp only [wsSingle, Bool.and_eq_true]
      exact ⟨by simp [hd], ih⟩

theorem collapseBy_eq_self {p : Char → Bool} {l : List Char} {b : Bool}
    (hw : wsSingle p l = true) (hb : b = true → headNot p l = true) :
    collapseBy p b l = l := by
  induction l generalizing b with
  | nil => rfl
  | cons d rest ih =>
    simp only [wsSingle, Bool.and_eq_true] at hw
    simp only [collapseBy]
    by_cases hd : p d = true
    · have hb' : b = false := by
        cases b with
        | false => rfl
        | true => simpa [headNot, hd] using hb rfl
      subst hb'
      simp only [hd, if_true] at hw ⊢
      simp only [Bool.false_eq_true, if_false]
      rcases hw with ⟨hsp, hrest⟩
      simp only [Bool.and_eq_true, decide_eq_true_eq] at hsp
      rw [hsp.1]
      congr 1
      exact ih hrest (fun _ => hsp.2)
    · simp only [Bool.not_eq_true] at hd
      simp [hd]
      exact ih hw.2 (by simp [hd])

theorem dropWhile_eq_self_of_headNot {q : Char → Bool} {l : List Char}
    (h : headNot q l = true) : l.dropWhile q = l := by
  cases l with
  | nil => rfl
  | cons c rest =>
    simp only [headNot, Bool.not_eq_true'] at h
    simp [List.dropWhile_cons, h]

/-- Is the last character (if any) a non-`p` character? -/
def lastNot (p : Char → Bool) (l : List Char) : Bool :=
  headNot p l.reverse

theorem jsTrimList_eq_self {l : List Char}
    (h1 : headNot isJsWs l = true) (h2 : lastNot isJsWs l = true) :
    jsTrimList l = l := by
  unfold jsTrimList
  rw [dropWhile_eq_self_of_headNot h1, dropWhile_eq_self_of_headNot h2, List.reverse_reverse]

theorem wsSingle_of_no_ws {p : Char → Bool} {l : List Char}
    (h : ∀ c ∈ l, p c = false) : wsSingle p l = true := by
  induction l with
  | nil => rfl
  | cons c rest ih =>
    simp only [wsSingle, Bool.and_eq_true]
    refine ⟨by simp [h c (List.mem_cons_self _ _)], ih fun d hd => h d (List.mem_cons_of_mem _ hd)⟩

theorem headNot_of_no_ws {p : Char → Bool} {l : List Char}
    (h : ∀ c ∈ l, p c = false) : headNot p l = true := by
  cases l with
  | nil => rfl
  | cons c rest => simp [headNot, h c (List.mem_cons_self _ _)]

theorem map_fix_eq_self {f : Char → Char} {l : List Char} (h : ∀ c ∈ l, f c = c) :
    l.map f = l := by
  induction l with
  | nil => rfl
  | cons c rest ih =>
    simp only [List.map_cons, h c (List.mem_cons_self _ _)]
    rw [ih fun d hd => h d (List.mem_cons_of_mem _ hd)]

theorem normChars_eq_self {l : List Char} (h : ∀ c ∈ l, isNormWs c = false) :
    normChars l = l := by
  have hjs : ∀ c ∈ l, isJsWs c = false := by
    intro c hc
    have := h c hc
    simp only [isNormWs, Bool.or_eq_false_iff] at this
    exact this.1
  have hmap : l.map (fun c => if c.val = 0xA0 then ' ' else c) = l := by
    apply map_fix_eq_self
    intro c hc
    have : isNormWs c = false := h c hc
    have hne : c.val ≠ 0xA0 := by
      intro hv
      simp [isNormWs, isJsWs, hv] at this
    simp [hne]
  unfold normChars
  rw [hmap, collapseBy_eq_self (wsSingle_of_no_ws h) (fun _ => headNot_of_no_ws h),
    jsTrimList_eq_self (headNot_of_no_ws hjs) (headNot_of_no_ws (by simpa using hjs))]

theorem norm_eq_self {s : String} (h : ∀ c ∈ s.data, isNormWs c = false) : norm s = s :=
  calc norm s = ⟨normChars s.data⟩ := rfl
    _ = ⟨s.data⟩ := by rw [normChars_eq_self h]
    _ = s := rfl

theorem fetchNorm_eq_self {s : String} (h : ∀ c ∈ s.data, isJsWs c = false) :
    Fetch.norm s = s := by
  have hmap : s.data.map (fun c => if c.val = 0xA0 then ' ' else c) = s.data := by
    apply map_fix_eq_self
    intro c hc
    have : isJsWs c = false := h c hc
    have hne : c.val ≠ 0xA0 := by
      intro hv
      simp [isJsWs, hv] at this
    simp [hne]
  show (⟨jsTrimList (collapseBy isJsWs false
    (s.data.map fun c => if c.val = 0xA0 then ' ' else c))⟩ : String) = s
  rw [hmap, collapseBy_eq_self (wsSingle_of_no_ws h) (fun _ => headNot_of_no_ws h),
    jsTrimList_eq_self (headNot_of_no_ws h) (headNot_of_no_ws (by simpa using h))]

theorem headNot_dropWhile (q : Char → Bool) (l : List Char) :
    headNot q (l.dropWhile q) = true := by
  induction l with
  | nil => rfl
  | cons c rest ih =>
    by_cases h : q c = true
    · simpa [List.dropWhile_cons, h] using ih
    · simp only [Bool.not_eq_true] at h
      simp [List.dropWhile_cons, h, headNot]

theorem jsTrimList_reverse (l : List Char) :
    (jsTrimList l).reverse = (l.dropWhile isJsWs).reverse.dropWhile isJsWs := by
  unfold jsTrimList
  rw [List.reverse_reverse]

theorem lastNot_jsTrimList (l : List Char) : lastNot isJsWs (jsTrimList l) = true := by
  unfold lastNot
  rw [jsTrimList_reverse]
  exact headNot_dropWhile _ _

theorem headNot_jsTrimList (l : List Char) : headNot isJsWs (jsTrimList l) = true := by
  cases hDr : jsTrimList l with
  | nil => rfl
  | cons c t =>
    have h1 : (jsTrimList l).head? = some c := by rw [hDr]; rfl
    have h2 : ((l.dropWhile isJsWs).reverse.dropWhile isJsWs).getLast? = some c := by
      rw [← List.head?_reverse, ← jsTrimList_reverse, List.reverse_reverse, h1]
    obtain ⟨pre, hpre⟩ := (l.dropWhile isJsWs).reverse.dropWhile_suffix isJsWs
    have hne : (l.dropWhile isJsWs).reverse.dropWhile isJsWs ≠ [] := by
      intro h
      rw [h] at h2
      simp at h2
    have h3 : ((l.dropWhile isJsWs).reverse).getLast? = some c := by
      rw [← hpre, List.getLast?_append_of_ne_nil pre hne]
      exact h2
    have h4 : (l.dropWhile isJsWs).head? = some c := by
      rw [← List.getLast?_reverse, h3]
    have h5 := headNot_dropWhile isJsWs l
    cases hA : l.dropWhile isJsWs with
    | nil => rw [hA] at h4; simp at h4
    | cons a rest =>
      rw [hA] at h4 h5
      simp only [List.head?_cons, Option.some_inj] at h4
      subst h4
      simpa [headNot, hDr] using h5

theorem mem_jsTrimList {c : Char} {l : List Char} (h : c ∈ jsTrimList l) : c ∈ l := by
  have h1 : c ∈ (l.dropWhile isJsWs).reverse.dropWhile isJsWs := by
    have := List.mem_reverse.mpr h
    rwa [jsTrimList_reverse] at this
  have h2 : c ∈ (l.dropWhile isJsWs).reverse :=
    ((l.dropWhile isJsWs).reverse.dropWhile_sublist isJsWs).subset h1
  exact (l.dropWhile_sublist isJsWs).subset (List.mem_reverse.mp h2)

theorem wsSingle_append_right {p : Char → Bool} {a t : List Char}
    (h : wsSingle p (a ++ t) = true) : wsSingle p t = true := by
  induction a with
  | nil => exact h
  | cons c rest ih =>
    simp only [List.cons_append, wsSingle, Bool.and_eq_true] at h
    exact ih h.2

theorem headNot_append_left {p : Char → Bool} {t b : List Char}
    (h : headNot p (t ++ b) = true) : headNot p t = true := by
  cases t with
  | nil => rfl
  | cons c rest => simpa [headNot] using h

theorem wsSingle_append_left {p : Char → Bool} {t b : List Char}
    (h : wsSingle p (t ++ b) = true) : wsSingle p t = true := by
  induction t with
  | nil => rfl
  | cons c rest ih =>
    simp only [List.cons_append, wsSingle, Bool.and_eq_true] at h
    simp only [wsSingle, Bool.and_eq_true]
    refine ⟨?_, ih h.2⟩
    rcases h with ⟨hc, _⟩
    by_cases hp : p c = true
    · simp only [hp, if_true, Bool.and_eq_true] at hc ⊢
      exact ⟨hc.1, headNot_append_left hc.2⟩
    · simp only [Bool.not_eq_true] at hp
      simp [hp]

theorem wsSingle_within {p : Char → Bool} {m l : List Char}
    (hinf : m <:+: l) (h : wsSingle p l = true) : wsSingle p m = true := by
  obtain ⟨a, b, hab⟩ := hinf
  subst hab
  rw [List.append_assoc] at h
  exact wsSingle_append_left (wsSingle_append_right h)

theorem jsTrimList_within (l : List Char) : jsTrimList l <:+: l := by
  obtain ⟨pre, hpre⟩ := (l.dropWhile isJsWs).reverse.dropWhile_suffix isJsWs
  have h1 : jsTrimList l <+: l.dropWhile isJsWs := by
    refine ⟨pre.reverse, ?_⟩
    have := congrArg List.reverse hpre
    rw [List.reverse_append, List.reverse_reverse] at this
    rw [← this]
    rfl
  exact h1.isInfix.trans (l.dropWhile_suffix isJsWs).isInfix

theorem mem_normChars_ws {l : List Char} {c : Char} (hc : c ∈ normChars l)
    (hw : isNormWs c = true) : c = ' ' := by
  have h1 : c ∈ collapseBy isNormWs false (l.map fun c => if c.val = 0xA0 then ' ' else c) :=
    mem_jsTrimList hc
  rcases mem_collapseBy h1 with h | h
  · exact h
  · rw [hw] at h
    exact absurd h.2 (by simp)

theorem wsSingle_normChars (l : List Char) : wsSingle isNormWs (normChars l) = true :=
  wsSingle_within (jsTrimList_within _) wsSingle_collapseBy

theorem isJsWs_of_isNormWs_mem {l : List Char} {c : Char} (hc : c ∈ normChars l) :
    isNormWs c = isJsWs c := by
  by_cases h : isNormWs c = true
  · rw [h, mem_normChars_ws hc h]
    rfl
  · simp only [Bool.not_eq_true] at h
    rw [h]
    have : isJsWs c = true → isNormWs c = true := by
      intro hj
      simp [isNormWs, hj]
    cases hjs : isJsWs c with
    | false => rfl
    | true => rw [h] at this; simpa using this hjs

theorem headNot_isNormWs_normChars (l : List Char) :
    headNot isNormWs (normChars l) = true := by
  cases hN : normChars l with
  | nil => rfl
  | cons c t =>
    have hmem : c ∈ normChars l := by rw [hN]; exact List.mem_cons_self _ _
    have := headNot_jsTrimList (collapseBy isNormWs false
      (l.map fun c => if c.val = 0xA0 then ' ' else c))
    have hh : headNot isJsWs (normChars l) = true := this
    rw [hN] at hh
    simp only [headNot, Bool.not_eq_true'] at hh
    simp [headNot, isJsWs_of_isNormWs_mem hmem, hh]

theorem lastNot_isNormWs_normChars (l : List Char) :
    lastNot isNormWs (normChars l) = true := by
  unfold lastNot
  cases hN : (normChars l).reverse with
  | nil => rfl
  | cons c t =>
    have hmem : c ∈ normChars l := by
      rw [← List.mem_reverse, hN]
      exact List.mem_cons_self _ _
    have hh := lastNot_jsTrimList (collapseBy isNormWs false
      (l.map fun c => if c.val = 0xA0 then ' ' else c))
    unfold lastNot at hh
    have hh' : headNot isJsWs ((normChars l).reverse) = true := hh
    rw [hN] at hh'
    simp only [headNot, Bool.not_eq_true'] at hh'
    simp [headNot, isJsWs_of_isNormWs_mem hmem, hh']

theorem normChars_idem (l : List Char) : normChars (normChars l) = normChars l := by
  have hA : ∀ c ∈ normChars l, isNormWs c = true → c = ' ' := fun c hc => mem_normChars_ws hc
  have hmap : (normChars l).map (fun c => if c.val = 0xA0 then ' ' else c) = normChars l := by
    apply map_fix_eq_self
    intro c hc
    by_cases h : c.val = 0xA0
    · have hw : isNormWs c = true := by simp [isNormWs, isJsWs, h]
      have := hA c hc hw
      subst this
      simp at h
    · simp [h]
  have hjsHead : headNot isJsWs (normChars (l := l)) = true := headNot_jsTrimList _
  have hjsLast : lastNot isJsWs (normChars (l := l)) = true := lastNot_jsTrimList _
  conv_lhs => rw [normChars]
  rw [hmap, collapseBy_eq_self (wsSingle_normChars l)
      (fun _ => headNot_isNormWs_normChars l),
    jsTrimList_eq_self hjsHead hjsLast]

theorem norm_idem (s : String) : norm (norm s) = norm s :=
  calc norm (norm s) = ⟨normChars (normChars s.data)⟩ := rfl
    _ = ⟨normChars s.data⟩ := by rw [normChars_idem]
    _ = norm s := rfl

/-- Does the pattern `a.m.`/`p.m.` (case-insensitive) match at the head? -/
def isAmpmAt : List Char → Bool
  | c :: '.' :: m :: '.' :: _ =>
    ((c = 'a' || c = 'A') && (m = 'm' || m = 'M')) ||
    ((c = 'p' || c = 'P') && (m = 'm' || m = 'M'))
  | _ => false

/-- Does the pattern `a.m.`/`p.m.` match anywhere? -/
def hasAmpm : List Char → Bool
  | [] => false
  | c :: rest => isAmpmAt (c :: rest) || hasAmpm rest

theorem isAmpmAt_false_of_first {c : Char} {l : List Char}
    (hc : (c = 'a' || c = 'A' || c = 'p' || c = 'P') = false) : isAmpmAt (c :: l) = false := by
  unfold isAmpmAt
  split
  · rename_i heq
    simp only [List.cons.injEq] at heq
    obtain ⟨rfl, -⟩ := heq
    simp only [Bool.or_eq_false_iff, decide_eq_false_iff_not] at hc
    obtain ⟨⟨⟨h1, h2⟩, h3⟩, h4⟩ := hc
    simp [h1, h2, h3, h4]
  · rfl

theorem isAmpmAt_false_of_second {c d : Char} {l : List Char} (hd : d ≠ '.') :
    isAmpmAt (c :: d :: l) = false := by
  unfold isAmpmAt
  split
  · rename_i heq
    simp only [List.cons.injEq] at heq
    exact absurd heq.2.1 hd
  · rfl

theorem isAmpmAt_false_of_third {c d x : Char} {l : List Char}
    (hx : (x = 'm' || x = 'M') = false) : isAmpmAt (c :: d :: x :: l) = false := by
  unfold isAmpmAt
  split
  · rename_i heq
    simp only [List.cons.injEq] at heq
    obtain ⟨-, -, hx', -⟩ := heq
    subst hx'
    simp only [Bool.or_eq_false_iff, decide_eq_false_iff_not] at hx
    simp [hx.1, hx.2]
  · rfl

theorem isAmpmAt_false_of_fourth {c d x y : Char} {l : List Char} (hy : y ≠ '.') :
    isAmpmAt (c :: d :: x :: y :: l) = false := by
  unfold isAmpmAt
  split
  · rename_i heq
    simp only [List.cons.injEq] at heq
    exact absurd heq.2.2.2.1 hy
  · rfl

theorem isAmpmAt_short_one (c : Char) : isAmpmAt [c] = false := by
  unfold isAmpmAt
  split
  · rename_i heq
    simp at heq
  · rfl

theorem isAmpmAt_short_two (c d : Char) : isAmpmAt [c, d] = false := by
  unfold isAmpmAt
  split
  · rename_i heq
    simp at heq
  · rfl

theorem isAmpmAt_short_three (c d x : Char) : isAmpmAt [c, d, x] = false := by
  unfold isAmpmAt
  split
  · rename_i heq
    simp at heq
  · rfl

theorem ampmReplace_head (c : Char) (t : List Char) :
    (∃ s, ampmReplace (c :: t) = 'A' :: s) ∨ (∃ s, ampmReplace (c :: t) = 'P' :: s) ∨
    (∃ s, ampmReplace (c :: t) = c :: s) := by
  rw [ampmReplace.eq_def]
  split
  · rename_i heq
    simp at heq
  · rename_i c' m r heq
    simp only [List.cons.injEq] at heq
    obtain ⟨rfl, -⟩ := heq
    split
    · exact Or.inl ⟨_, rfl⟩
    · split
      · exact Or.inr (Or.inl ⟨_, rfl⟩)
      · exact Or.inr (Or.inr ⟨_, rfl⟩)
  · rename_i c' rest hne h2
    simp only [List.cons.injEq] at h2
    obtain ⟨rfl, -⟩ := h2
    exact Or.inr (Or.inr ⟨_, rfl⟩)

theorem ampmReplace_dot (t : List Char) : ampmReplace ('.' :: t) = '.' :: ampmReplace t := by
  rw [ampmReplace.eq_def]
  split
  · rename_i heq
    simp at heq
  · rename_i c' m r heq
    simp only [List.cons.injEq] at heq
    obtain ⟨hc', ht⟩ := heq
    rw [← hc', ht]
    rw [if_neg (by simp), if_neg (by simp)]
  · rename_i c' rest hne h2
    simp only [List.cons.injEq] at h2
    obtain ⟨rfl, ht⟩ := h2
    rw [ht]

theorem ampmReplace_cons_of_snd_ne {d : Char} (c : Char) (t : List Char) (hd : d ≠ '.') :
    ampmReplace (c :: d :: t) = c :: ampmReplace (d :: t) := by
  rw [ampmReplace.eq_def]
  split
  · rename_i heq
    simp at heq
  · rename_i c' m r heq
    simp only [List.cons.injEq] at heq
    exact absurd heq.2.1 hd
  · rename_i c' rest hne h2
    simp only [List.cons.injEq] at h2
    obtain ⟨rfl, ht⟩ := h2
    rw [ht]

theorem ampmReplace_one (c : Char) : ampmReplace [c] = [c] := by
  rw [ampmReplace.eq_def]
  split
  · rename_i heq
    simp at heq
  · rename_i c' m r heq
    simp at heq
  · rename_i c' rest hne h2
    simp only [List.cons.injEq] at h2
    obtain ⟨rfl, ht⟩ := h2
    rw [← ht]
    rfl

theorem ampmReplace_fire_am {c m : Char} {r : List Char}
    (h : ((c = 'a' || c = 'A') && (m = 'm' || m = 'M')) = true) :
    ampmReplace (c :: '.' :: m :: '.' :: r) = 'A' :: 'M' :: ampmReplace r := by
  rw [ampmReplace.eq_def]
  split
  · rename_i heq
    simp at heq
  · rename_i c' m' r' heq
    simp only [List.cons.injEq] at heq
    obtain ⟨rfl, -, rfl, -, rfl⟩ := heq
    rw [if_pos h]
  · rename_i c' rest hne h2
    simp only [List.cons.injEq] at h2
    exact absurd (hne _ _ h2.2.symm) (by simp)

theorem ampmReplace_fire_pm {c m : Char} {r : List Char}
    (h1 : ((c = 'a' || c = 'A') && (m = 'm' || m = 'M')) = false)
    (h2 : ((c = 'p' || c = 'P') && (m = 'm' || m = 'M')) = true) :
    ampmReplace (c :: '.' :: m :: '.' :: r) = 'P' :: 'M' :: ampmReplace r := by
  rw [ampmReplace.eq_def]
  split
  · rename_i heq
    simp at heq
  · rename_i c' m' r' heq
    simp only [List.cons.injEq] at heq
    obtain ⟨rfl, -, rfl, -, rfl⟩ := heq
    rw [if_neg (by simp [h1]), if_pos h2]
  · rename_i c' rest hne heq2
    simp only [List.cons.injEq] at heq2
    exact absurd (hne _ _ heq2.2.symm) (by simp)

theorem ampmReplace_nofire {c m : Char} {r : List Char}
    (h1 : ((c = 'a' || c = 'A') && (m = 'm' || m = 'M')) = false)
    (h2 : ((c = 'p' || c = 'P') && (m = 'm' || m = 'M')) = false) :
    ampmReplace (c :: '.' :: m :: '.' :: r) = c :: ampmReplace ('.' :: m :: '.' :: r) := by
  rw [ampmReplace.eq_def]
  split
  · rename_i heq
    simp at heq
  · rename_i c' m' r' heq
    simp only [List.cons.injEq] at heq
    obtain ⟨rfl, -, rfl, -, rfl⟩ := heq
    rw [if_neg (by simp [h1]), if_neg (by simp [h2])]
  · rename_i c' rest hne heq2
    simp only [List.cons.injEq] at heq2
    exact absurd (hne _ _ heq2.2.symm) (by simp)

theorem ampmReplace_catch {c : Char} {rest : List Char}
    (hne : ∀ (m : Char) (r : List Char), rest = '.' :: m :: '.' :: r → False) :
    ampmReplace (c :: rest) = c :: ampmReplace rest := by
  rw [ampmReplace.eq_def]
  split
  · rename_i heq
    simp at heq
  · rename_i c' m' r' heq
    simp only [List.cons.injEq] at heq
    exact absurd (hne _ _ heq.2) (by simp)
  · rename_i c' rest' hne' heq2
    simp only [List.cons.injEq] at heq2
    obtain ⟨rfl, ht⟩ := heq2
    rw [ht]

theorem hasAmpm_ampmReplace (l : List Char) : hasAmpm (ampmReplace l) = false := by
  induction l using ampmReplace.induct with
  | case1 => rfl
  | case2 c m r hcond ih =>
    rw [ampmReplace_fire_am hcond]
    simp only [hasAmpm, Bool.or_eq_false_iff]
    exact ⟨isAmpmAt_false_of_second (by decide), isAmpmAt_false_of_first (by decide), ih⟩
  | case3 c m r hna hcond ih =>
    rw [ampmReplace_fire_pm (by simpa using hna) hcond]
    simp only [hasAmpm, Bool.or_eq_false_iff]
    exact ⟨isAmpmAt_false_of_second (by decide), isAmpmAt_false_of_first (by decide), ih⟩
  | case4 c m r hna hnp ih =>
    rw [ampmReplace_nofire (by simpa using hna) (by simpa using hnp)]
    rw [ampmReplace_dot] at ih ⊢
    simp only [hasAmpm, Bool.or_eq_false_iff] at ih ⊢
    refine ⟨?_, ih⟩
    rcases ampmReplace_head m ('.' :: r) with ⟨s, hs⟩ | ⟨s, hs⟩ | ⟨s, hs⟩ <;> rw [hs]
    · exact isAmpmAt_false_of_third (by decide)
    · exact isAmpmAt_false_of_third (by decide)
    · by_cases hm : (m = 'm' || m = 'M') = true
      · have hca : (c = 'a' || c = 'A') = false := by
          cases hb : (c = 'a' || c = 'A') with
          | false => rfl
          | true => exact absurd (by rw [hb, hm]; rfl) hna
        have hcp : (c = 'p' || c = 'P') = false := by
          cases hb : (c = 'p' || c = 'P') with
          | false => rfl
          | true => exact absurd (by rw [hb, hm]; rfl) hnp
        apply isAmpmAt_false_of_first
        simp only [Bool.or_eq_false_iff, decide_eq_false_iff_not] at hca hcp ⊢
        exact ⟨⟨hca, hcp.1⟩, hcp.2⟩
      · exact isAmpmAt_false_of_third (by simpa using hm)
  | case5 c rest hne ih =>
    rw [ampmReplace_catch hne]
    simp only [hasAmpm, Bool.or_eq_false_iff]
    refine ⟨?_, ih⟩
    match rest, hne with
    | [], _ => exact isAmpmAt_short_one c
    | d :: rest2, hne =>
      by_cases hd : d = '.'
      · subst hd
        rw [ampmReplace_dot]
        match rest2, hne with
        | [], _ => exact isAmpmAt_short_two c '.'
        | [y], _ =>
          rw [ampmReplace_one]
          exact isAmpmAt_short_three c '.' y
        | y :: z :: w, hne =>
          have hz : z ≠ '.' := by
            intro hz
            subst hz
            exact hne y w rfl
          rw [ampmReplace_cons_of_snd_ne y w hz]
          rcases ampmReplace_head z w with ⟨s, hs⟩ | ⟨s, hs⟩ | ⟨s, hs⟩ <;> rw [hs]
          · exact isAmpmAt_false_of_fourth (by decide)
          · exact isAmpmAt_false_of_fourth (by decide)
          · exact isAmpmAt_false_of_fourth hz
      · rcases ampmReplace_head d rest2 with ⟨s, hs⟩ | ⟨s, hs⟩ | ⟨s, hs⟩ <;> rw [hs]
        · exact isAmpmAt_false_of_second (by decide)
        · exact isAmpmAt_false_of_second (by decide)
        · exact isAmpmAt_false_of_second hd

theorem isAmpmAt_shape {c : Char} {X : List Char} (h : isAmpmAt (c :: X) = true) :
    ∃ x s, X = '.' :: x :: '.' :: s ∧
      (((c = 'a' || c = 'A') && (x = 'm' || x = 'M')) ||
       ((c = 'p' || c = 'P') && (x = 'm' || x = 'M'))) = true := by
  unfold isAmpmAt at h
  split at h
  · rename_i heq
    simp only [List.cons.injEq] at heq
    obtain ⟨rfl, ht⟩ := heq
    exact ⟨_, _, ht, h⟩
  · simp at h

theorem isAmpmAt_cons_shape (c m : Char) (r : List Char) :
    isAmpmAt (c :: '.' :: m :: '.' :: r) =
      (((c = 'a' || c = 'A') && (m = 'm' || m = 'M')) ||
       ((c = 'p' || c = 'P') && (m = 'm' || m = 'M'))) := by
  unfold isAmpmAt
  split
  · rename_i heq
    simp only [List.cons.injEq] at heq
    obtain ⟨rfl, -, rfl, -, -⟩ := heq
    rfl
  · rename_i hne
    exact ((hne c m _ rfl).elim : _)

theorem hasAmpm_cons {c : Char} {rest : List Char} (h : hasAmpm rest = true) :
    hasAmpm (c :: rest) = true := by
  simp [hasAmpm, h]

theorem hasAmpm_append_right {m : List Char} (x : List Char) (h : hasAmpm m = true) :
    hasAmpm (x ++ m) = true := by
  induction x with
  | nil => exact h
  | cons c t ih => exact hasAmpm_cons ih

theorem isAmpmAt_append {l : List Char} (b : List Char) (h : isAmpmAt l = true) :
    isAmpmAt (l ++ b) = true := by
  cases l with
  | nil => simp [isAmpmAt] at h
  | cons c X =>
    obtain ⟨x, s, rfl, hcond⟩ := isAmpmAt_shape h
    simpa [isAmpmAt_cons_shape] using hcond

theorem hasAmpm_append_left {m : List Char} (b : List Char) (h : hasAmpm m = true) :
    hasAmpm (m ++ b) = true := by
  induction m with
  | nil => simp [hasAmpm] at h
  | cons c t ih =>
    simp only [hasAmpm, Bool.or_eq_true] at h
    rcases h with h | h
    · simp only [List.cons_append, hasAmpm, Bool.or_eq_true]
      exact Or.inl (by simpa using isAmpmAt_append b h)
    · simpa [hasAmpm] using Or.inr (ih h)

theorem hasAmpm_within {m l : List Char} (hinf : m <:+: l) (h : hasAmpm m = true) :
    hasAmpm l = true := by
  obtain ⟨a, b, hab⟩ := hinf
  subst hab
  rw [List.append_assoc]
  exact hasAmpm_append_right a (hasAmpm_append_left b h)

theorem collapseBy_cons_elim {p : Char → Bool} {rest s : List Char} {d : Char}
    (hsp : p ' ' = true) (h : collapseBy p false rest = d :: s) (hd : p d = false) :
    ∃ rest2, rest = d :: rest2 ∧ s = collapseBy p false rest2 := by
  cases rest with
  | nil => simp [collapseBy] at h
  | cons e r2 =>
    simp only [collapseBy] at h
    by_cases he : p e = true
    · simp only [he, if_true, Bool.false_eq_true, if_false] at h
      have : d = ' ' := by
        have := h
        simp only [List.cons.injEq] at this
        exact this.1.symm
      rw [this] at hd
      rw [hsp] at hd
      simp at hd
    · simp only [Bool.not_eq_true] at he
      simp only [he, Bool.false_eq_true, if_false, List.cons.injEq] at h
      exact ⟨r2, by rw [h.1], h.2.symm⟩

theorem hasAmpm_collapseBy {l : List Char} {b : Bool}
    (h : hasAmpm (collapseBy isJsWs b l) = true) : hasAmpm l = true := by
  induction l generalizing b with
  | nil => simp [collapseBy, hasAmpm] at h
  | cons c rest ih =>
    simp only [collapseBy] at h
    by_cases hc : isJsWs c = true
    · simp only [hc, if_true] at h
      by_cases hb : b
      · subst hb
        simp only [if_true] at h
        exact hasAmpm_cons (ih h)
      · simp only [Bool.not_eq_true] at hb
        subst hb
        simp only [Bool.false_eq_true, if_false] at h
        simp only [hasAmpm, Bool.or_eq_true] at h
        rcases h with h | h
        · rw [isAmpmAt_false_of_first (by decide)] at h
          simp at h
        · exact hasAmpm_cons (ih h)
    · simp only [Bool.not_eq_true] at hc
      simp only [hc, Bool.false_eq_true, if_false] at h
      simp only [hasAmpm, Bool.or_eq_true] at h
      rcases h with h | h
      · obtain ⟨x, s, hX, hcond⟩ := isAmpmAt_shape h
        obtain ⟨r2, hr2, hs2⟩ := collapseBy_cons_elim (by decide) hX (by decide)
        have hxw : isJsWs x = false := by
          simp only [Bool.or_eq_true, Bool.and_eq_true, decide_eq_true_eq] at hcond
          rcases hcond with ⟨-, hx⟩ | ⟨-, hx⟩ <;>
            rcases hx with rfl | rfl <;> decide
        obtain ⟨r3, hr3, hs3⟩ := collapseBy_cons_elim (by decide) hs2.symm hxw
        obtain ⟨r4, hr4, hs4⟩ := collapseBy_cons_elim (by decide) hs3.symm (by decide)
        subst hr2 hr3 hr4
        simp only [hasAmpm, Bool.or_eq_true]
        exact Or.inl (by simpa [isAmpmAt_cons_shape] using hcond)
      · exact hasAmpm_cons (ih h)

theorem ampmReplace_eq_self {l : List Char} (h : hasAmpm l = false) : ampmReplace l = l := by
  induction l using ampmReplace.induct with
  | case1 => rfl
  | case2 c m r hcond ih =>
    exfalso
    simp only [hasAmpm, Bool.or_eq_false_iff] at h
    rw [isAmpmAt_cons_shape, hcond] at h
    simpa using h.1
  | case3 c m r hna hcond ih =>
    exfalso
    simp only [hasAmpm, Bool.or_eq_false_iff] at h
    rw [isAmpmAt_cons_shape, hcond] at h
    simpa using h.1
  | case4 c m r hna hnp ih =>
    rw [ampmReplace_nofire (by simpa using hna) (by simpa using hnp)]
    rw [show hasAmpm (c :: '.' :: m :: '.' :: r) =
      (isAmpmAt (c :: '.' :: m :: '.' :: r) || hasAmpm ('.' :: m :: '.' :: r)) from rfl,
      Bool.or_eq_false_iff] at h
    rw [ih h.2]
  | case5 c rest hne ih =>
    rw [ampmReplace_catch hne]
    rw [show hasAmpm (c :: rest) = (isAmpmAt (c :: rest) || hasAmpm rest) from rfl,
      Bool.or_eq_false_iff] at h
    rw [ih h.2]

theorem mem_ampmReplace {c : Char} {l : List Char} (h : c ∈ ampmReplace l) :
    c ∈ l ∨ c = 'A' ∨ c = 'M' ∨ c = 'P' := by
  induction l using ampmReplace.induct with
  | case1 => simp [ampmReplace] at h
  | case2 cc m r hcond ih =>
    rw [ampmReplace_fire_am hcond] at h
    simp only [List.mem_cons] at h
    rcases h with rfl | rfl | h
    · simp
    · simp
    · rcases ih h with h' | h' <;> [exact Or.inl (by simp [h']); exact Or.inr h']
  | case3 cc m r hna hcond ih =>
    rw [ampmReplace_fire_pm (by simpa using hna) hcond] at h
    simp only [List.mem_cons] at h
    rcases h with rfl | rfl | h
    · simp
    · simp
    · rcases ih h with h' | h' <;> [exact Or.inl (by simp [h']); exact Or.inr h']
  | case4 cc m r hna hnp ih =>
    rw [ampmReplace_nofire (by simpa using hna) (by simpa using hnp)] at h
    simp only [List.mem_cons] at h
    rcases h with rfl | h
    · simp
    · rcases ih h with h' | h'
      · simp only [List.mem_cons] at h' ⊢
        exact Or.inl (Or.inr h')
      · exact Or.inr h'
  | case5 cc rest hne ih =>
    rw [ampmReplace_catch hne] at h
    simp only [List.mem_cons] at h
    rcases h with rfl | h
    · simp
    · rcases ih h with h' | h'
      · exact Or.inl (by simp [h'])
      · exact Or.inr h'

theorem mem_replaceBrackets {c : Char} {l : List Char} (h : c ∈ replaceBrackets l) :
    c = ' ' ∨ (c ∈ l ∧ (c = '(' || c = ')' || c = '[' || c = ']') = false) := by
  unfold replaceBrackets at h
  obtain ⟨d, hd, hfd⟩ := List.mem_map.mp h
  by_cases hb : (d = '(' || d = ')' || d = '[' || d = ']') = true
  · rw [if_pos hb] at hfd
    exact Or.inl hfd.symm
  · simp only [Bool.not_eq_true] at hb
    rw [if_neg (by simp [hb])] at hfd
    subst hfd
    exact Or.inr ⟨hd, hb⟩

theorem mem_trimCollapse {c : Char} {v : List Char}
    (h : c ∈ jsTrimList (collapseBy isJsWs false v)) :
    c = ' ' ∨ (c ∈ v ∧ isJsWs c = false) :=
  mem_collapseBy (mem_jsTrimList h)

theorem hasAmpm_trimCollapse {v : List Char}
    (h : hasAmpm (jsTrimList (collapseBy isJsWs false v)) = true) : hasAmpm v = true :=
  hasAmpm_collapseBy (hasAmpm_within (jsTrimList_within _) h)

theorem wsSingle_congr {p q : Char → Bool} {l : List Char} (h : ∀ c ∈ l, p c = q c) :
    wsSingle p l = wsSingle q l := by
  induction l with
  | nil => rfl
  | cons c rest ih =>
    simp only [wsSingle]
    have hc := h c (List.mem_cons_self _ _)
    have hrest : ∀ d ∈ rest, p d = q d := fun d hd => h d (List.mem_cons_of_mem _ hd)
    rw [hc, ih hrest]
    congr 1
    cases rest with
    | nil => rfl
    | cons d t =>
      simp only [headNot]
      rw [hrest d (List.mem_cons_self _ _)]

theorem parseClock_empty_input : parseClock "" = "" := by decide

theorem parseClock_fixed_point {T : List Char}
    (hW : wsSingle isJsWs T = true)
    (hH : headNot isJsWs T = true) (hL : lastNot isJsWs T = true)
    (hAmp : hasAmpm T = false)
    (hNoB : ∀ c ∈ T, (c = '(' || c = ')' || c = '[' || c = ']') = false)
    (hNoZ : ∀ c ∈ T, c.val ≠ 0x200B) (hNoN : ∀ c ∈ T, c.val ≠ 0xA0) :
    parseClock ⟨T⟩ = ⟨T⟩ := by
  have hANorm : ∀ c ∈ T, isNormWs c = isJsWs c := by
    intro c hc
    cases hj : isJsWs c with
    | true => simp [isNormWs, hj]
    | false =>
      simp only [isNormWs, hj, Bool.false_or]
      simpa using hNoZ c hc
  have hWn : wsSingle isNormWs T = true := by
    rw [wsSingle_congr hANorm]
    exact hW
  have hHn : headNot isNormWs T = true := by
    cases T with
    | nil => rfl
    | cons c rest =>
      simp only [headNot] at hH ⊢
      rw [hANorm c (List.mem_cons_self _ _)]
      exact hH
  have hmap : T.map (fun c => if c.val = 0xA0 then ' ' else c) = T :=
    map_fix_eq_self fun c hc => by simp [hNoN c hc]
  have hcoln : collapseBy isNormWs false T = T := collapseBy_eq_self hWn (by simp)
  have htr : jsTrimList T = T := jsTrimList_eq_self hH hL
  have hnormT : norm (⟨T⟩ : String) = (⟨T⟩ : String) := by
    show (⟨normChars T⟩ : String) = ⟨T⟩
    unfold normChars
    rw [hmap, hcoln, htr]
  by_cases hT0 : T = []
  · subst hT0
    exact parseClock_empty_input
  · have hTne : (⟨T⟩ : String) ≠ "" := by
      intro h
      exact hT0 (congrArg String.data h)
    unfold parseClock
    rw [hnormT, if_neg hTne]
    have hrb : replaceBrackets T = T :=
      map_fix_eq_self fun c hc => by
        have := hNoB c hc
        simp only [Bool.or_eq_false_iff, decide_eq_false_iff_not] at this
        simp [this.1.1.1, this.1.1.2, this.1.2, this.2]
    have hcol : collapseBy isJsWs false T = T := collapseBy_eq_self hW (by simp)
    show (⟨jsTrimList (collapseBy isJsWs false
      (ampmReplace (jsTrimList (collapseBy isJsWs false (replaceBrackets T)))))⟩ : String)
      = ⟨T⟩
    rw [hrb, hcol, htr, ampmReplace_eq_self hAmp, hcol, htr]

theorem parseClock_idem (s : String) : parseClock (parseClock s) = parseClock s := by
  by_cases h0 : norm s = ""
  · have h1 : parseClock s = "" := by
      unfold parseClock
      rw [if_pos h0]
    rw [h1, parseClock_empty_input]
  · have hps : parseClock s = ⟨jsTrimList (collapseBy isJsWs false
        (ampmReplace (jsTrimList (collapseBy isJsWs false
          (replaceBrackets (norm s).data)))))⟩ := by
      unfold parseClock
      rw [if_neg h0]
    rw [hps]
    generalize hu : jsTrimList (collapseBy isJsWs false
      (replaceBrackets (norm s).data)) = u at hps
    generalize hT : jsTrimList (collapseBy isJsWs false (ampmReplace u)) = T at hps
    have hmemT : ∀ c ∈ T, c = ' ' ∨ (c ∈ ampmReplace u ∧ isJsWs c = false) := by
      intro c hc
      rw [← hT] at hc
      exact mem_trimCollapse hc
    have hchase : ∀ c ∈ T, c = ' ' ∨ c = 'A' ∨ c = 'M' ∨ c = 'P' ∨
        (c ∈ (norm s).data ∧ isJsWs c = false ∧
          (c = '(' || c = ')' || c = '[' || c = ']') = false) := by
      intro c hc
      rcases hmemT c hc with h | ⟨hv, hw⟩
      · exact Or.inl h
      · rcases mem_ampmReplace hv with hu' | h'
        · rw [← hu] at hu'
          rcases mem_trimCollapse hu' with h | ⟨hrb, hw'⟩
          · exact Or.inl h
          · rcases mem_replaceBrackets hrb with h | ⟨hl, hnb⟩
            · exact Or.inl h
            · exact Or.inr (Or.inr (Or.inr (Or.inr ⟨hl, hw', hnb⟩)))
        · rcases h' with h | h | h
          · exact Or.inr (Or.inl h)
          · exact Or.inr (Or.inr (Or.inl h))
          · exact Or.inr (Or.inr (Or.inr (Or.inl h)))
    have hNoZ : ∀ c ∈ T, c.val ≠ 0x200B := by
      intro c hc hz
      rcases hchase c hc with h | h | h | h | ⟨hl, -, -⟩
      · rw [h] at hz; simp at hz
      · rw [h] at hz; simp at hz
      · rw [h] at hz; simp at hz
      · rw [h] at hz; simp at hz
      · have := mem_normChars_ws hl (by simp [isNormWs, hz])
        rw [this] at hz
        simp at hz
    have hA : ∀ c ∈ T, isJsWs c = true → c = ' ' := by
      intro c hc hw
      rcases hmemT c hc with h | ⟨-, hw'⟩
      · exact h
      · rw [hw] at hw'; simp at hw'
    have hNoN : ∀ c ∈ T, c.val ≠ 0xA0 := by
      intro c hc hn
      have := hA c hc (by simp [isJsWs, hn])
      rw [this] at hn
      simp at hn
    have hNoB : ∀ c ∈ T, (c = '(' || c = ')' || c = '[' || c = ']') = false := by
      intro c hc
      rcases hchase c hc with h | h | h | h | ⟨-, -, hnb⟩ <;> first
        | (subst h; decide)
        | exact hnb
    have hW : wsSingle isJsWs T = true := by
      rw [← hT]
      exact wsSingle_within (jsTrimList_within _) wsSingle_collapseBy
    have hH : headNot isJsWs T = true := by
      rw [← hT]
      exact headNot_jsTrimList _
    have hL : lastNot isJsWs T = true := by
      rw [← hT]
      exact lastNot_jsTrimList _
    have hAmp : hasAmpm T = false := by
      cases hval : hasAmpm T with
      | false => rfl
      | true =>
        rw [← hT] at hval
        have := hasAmpm_trimCollapse hval
        rw [hasAmpm_ampmReplace] at this
        simp at this
    exact parseClock_fixed_point hW hH hL hAmp hNoB hNoZ hNoN

theorem dedupeByGo_sublist (key : α → String) (seen : List String) (l : List α) :
    List.Sublist (dedupeByGo key seen l) l := by
  induction l generalizing seen with
  | nil => exact List.Sublist.refl _
  | cons r rest ih =>
    simp only [dedupeByGo]
    by_cases h : key r ∈ seen
    · rw [if_pos h]
      exact (ih seen).cons _
    · rw [if_neg h]
      exact (ih _).cons₂ _

theorem dedupeByGo_not_seen (key : α → String) (seen : List String) (l : List α) :
    ∀ r ∈ dedupeByGo key seen l, key r ∉ seen := by
  induction l generalizing seen with
  | nil => intro r hr; simp [dedupeByGo] at hr
  | cons x rest ih =>
    intro r hr
    simp only [dedupeByGo] at hr
    by_cases h : key x ∈ seen
    · rw [if_pos h] at hr
      exact ih seen r hr
    · rw [if_neg h] at hr
      rcases List.mem_cons.mp hr with rfl | hr'
      · exact h
      · intro hs
        exact ih _ r hr' (List.mem_cons_of_mem _ hs)

theorem dedupeByGo_pairwise (key : α → String) (seen : List String) (l : List α) :
    (dedupeByGo key seen l).Pairwise (fun a b => key a ≠ key b) := by
  induction l generalizing seen with
  | nil => exact List.Pairwise.nil
  | cons x rest ih =>
    simp only [dedupeByGo]
    by_cases h : key x ∈ seen
    · rw [if_pos h]
      exact ih seen
    · rw [if_neg h]
      refine List.Pairwise.cons ?_ (ih _)
      intro b hb hkey
      exact dedupeByGo_not_seen key _ rest b hb (by rw [← hkey]; exact List.mem_cons_self _ _)

theorem dedupeByGo_filter (key : α → String) (k : String) (seen : List String) (l : List α) :
    (dedupeByGo key seen l).filter (fun r => key r = k) =
      if k ∈ seen then [] else (l.filter fun r => key r = k).take 1 := by
  induction l generalizing seen with
  | nil => simp [dedupeByGo]
  | cons r rest ih =>
    simp only [dedupeByGo]
    by_cases h : key r ∈ seen
    · rw [if_pos h, ih seen]
      by_cases hk : k ∈ seen
      · rw [if_pos hk, if_pos hk]
      · rw [if_neg hk, if_neg hk]
        have hne : decide (key r = k) = false := by
          simp only [decide_eq_false_iff_not]
          intro he
          rw [he] at h
          exact hk h
        simp only [List.filter_cons, hne]
        simp
    · rw [if_neg h]
      by_cases hrk : key r = k
      · subst hrk
        simp only [List.filter_cons, decide_True, if_true]
        rw [ih (key r :: seen), if_pos (List.mem_cons_self _ _), if_neg h]
        simp
      · have hne : decide (key r = k) = false := by simp [hrk]
        simp only [List.filter_cons, hne, Bool.false_eq_true, if_false]
        rw [ih (key r :: seen)]
        by_cases hk : k ∈ seen
        · rw [if_pos (List.mem_cons_of_mem _ hk), if_pos hk]
        · rw [if_neg ?_, if_neg hk]
          intro hmem
          rcases List.mem_cons.mp hmem with h' | h'
          · exact hrk h'.symm
          · exact hk h'

theorem dedupeByGo_eq_spec (key : α → String) (seen : List String) (l : List α) :
    dedupeByGo key seen l = dedupeSpec key (l.filter fun r => key r ∉ seen) := by
  suffices H : ∀ (n : Nat) (l : List α) (seen : List String), l.length = n →
      dedupeByGo key seen l = dedupeSpec key (l.filter fun r => key r ∉ seen) from
    H l.length l seen rfl
  intro n
  induction n using Nat.strong_induction_on with
  | _ n ih =>
    intro l seen hl
    cases l with
    | nil => simp [dedupeByGo, dedupeSpec]
    | cons r rest =>
      simp only [dedupeByGo, List.filter_cons]
      by_cases h : key r ∈ seen
      · rw [if_pos h, show (decide (key r ∉ seen)) = false by simp [h]]
        simp only [Bool.false_eq_true, if_false]
        exact ih rest.length (by rw [← hl]; simp) rest seen rfl
      · rw [if_neg h, show (decide (key r ∉ seen)) = true by simp [h]]
        simp only [if_true]
        rw [dedupeSpec]
        congr 1
        rw [ih rest.length (by rw [← hl]; simp) rest (key r :: seen) rfl]
        congr 1
        rw [List.filter_filter]
        apply List.filter_congr
        intro x hx
        by_cases h1 : key x = key r
        · simp [h1]
        · by_cases h2 : key x ∈ seen <;> simp [h1, h2, List.mem_cons]

theorem charListLt_irrefl (l : List Char) : charListLt l l = false := by
  induction l with
  | nil => rfl
  | cons c rest ih => simp [charListLt, ih]

theorem charListLt_asymm {a b : List Char} (h : charListLt a b = true) :
    charListLt b a = false := by
  induction a generalizing b with
  | nil =>
    cases b with
    | nil => simp [charListLt]
    | cons d bs => simp [charListLt]
  | cons c as ih =>
    cases b with
    | nil => simp [charListLt] at h
    | cons d bs =>
      simp only [charListLt] at h ⊢
      by_cases h1 : c.toNat < d.toNat
      · rw [if_neg (by omega), if_pos h1]
      · rw [if_neg h1] at h
        by_cases h2 : d.toNat < c.toNat
        · rw [if_pos h2] at h
          simp at h
        · rw [if_neg h2] at h
          rw [if_neg h2, if_neg h1]
          exact ih h

theorem charListLt_conn {a b : List Char} (h1 : charListLt a b = false)
    (h2 : charListLt b a = false) : a = b := by
  induction a generalizing b with
  | nil =>
    cases b with
    | nil => rfl
    | cons d bs => simp [charListLt] at h1
  | cons c as ih =>
    cases b with
    | nil => simp [charListLt] at h2
    | cons d bs =>
      simp only [charListLt] at h1 h2
      by_cases hcd : c.toNat < d.toNat
      · rw [if_pos hcd] at h1
        simp at h1
      · rw [if_neg hcd] at h1
        by_cases hdc : d.toNat < c.toNat
        · rw [if_pos hdc] at h2
          simp at h2
        · rw [if_neg hdc] at h1
          rw [if_neg hdc, if_neg hcd] at h2
          have hc : c = d := Char.eq_of_val_eq (UInt32.ext (by
            simp only [Char.toNat] at hcd hdc
            omega))
          rw [hc, ih h1 h2]

theorem charListLt_trans {a b c : List Char} (h1 : charListLt a b = true)
    (h2 : charListLt b c = true) : charListLt a c = true := by
  induction a generalizing b c with
  | nil =>
    cases c with
    | nil =>
      cases b with
      | nil => simp [charListLt] at h1
      | cons d bs => simp [charListLt] at h2
    | cons e cs => simp [charListLt]
  | cons x as ih =>
    cases b with
    | nil => simp [charListLt] at h1
    | cons y bs =>
      cases c with
      | nil => simp [charListLt] at h2
      | cons z cs =>
        simp only [charListLt] at h1 h2 ⊢
        by_cases hxy : x.toNat < y.toNat
        · by_cases hyz : y.toNat < z.toNat
          · rw [if_pos (by omega)]
          · rw [if_neg hyz] at h2
            by_cases hzy : z.toNat < y.toNat
            · rw [if_pos hzy] at h2
              simp at h2
            · rw [if_pos (by omega)]
        · rw [if_neg hxy] at h1
          by_cases hyx : y.toNat < x.toNat
          · rw [if_pos hyx] at h1
            simp at h1
          · rw [if_neg hyx] at h1
            by_cases hyz : y.toNat < z.toNat
            · rw [if_pos (by omega)]
            · rw [if_neg hyz] at h2
              by_cases hzy : z.toNat < y.toNat
              · rw [if_pos hzy] at h2
                simp at h2
              · rw [if_neg hzy] at h2
                rw [if_neg (by omega), if_neg (by omega)]
                exact ih h1 h2

theorem strLt_asymm {a b : String} (h : strLt a b = true) : strLt b a = false :=
  charListLt_asymm h

theorem strLt_conn {a b : String} (h1 : strLt a b = false) (h2 : strLt b a = false) : a = b := by
  have := charListLt_conn h1 h2
  calc a = ⟨a.data⟩ := rfl
    _ = ⟨b.data⟩ := by rw [this]
    _ = b := rfl

theorem strLt_trans {a b c : String} (h1 : strLt a b = true) (h2 : strLt b c = true) :
    strLt a c = true :=
  charListLt_trans h1 h2

/-- Totality of `localeCompare`-style comparators: one direction is
always non-positive. -/
def LcTotal (lc : String → String → Int) : Prop :=
  ∀ a b, lc a b ≤ 0 ∨ lc b a ≤ 0

/-- Transitivity of the non-positive relation of a comparator. -/
def LcTrans (lc : String → String → Int) : Prop :=
  ∀ a b c, lc a b ≤ 0 → lc b c ≤ 0 → lc a c ≤ 0

theorem senComparator_le_iff {lc : String → String → Int} {a b : SenRecord}
    (ha : a.isoDate ≠ "") (hb : b.isoDate ≠ "") :
    (senComparator lc a b ≤ 0 ↔
      strLt a.isoDate b.isoDate = true ∨
      (a.isoDate = b.isoDate ∧ lc a.committee b.committee ≤ 0)) := by
  unfold senComparator
  rw [if_pos (by simp [ha, hb])]
  by_cases h1 : strLt a.isoDate b.isoDate = true
  · rw [if_pos h1]
    simp [h1]
  · simp only [Bool.not_eq_true] at h1
    rw [if_neg (by simp [h1])]
    by_cases h2 : strLt b.isoDate a.isoDate = true
    · rw [if_pos h2]
      constructor
      · intro h
        omega
      · intro h
        rcases h with h | ⟨heq, -⟩
        · rw [h1] at h
          simp at h
        · rw [heq] at h2
          rw [show strLt b.isoDate b.isoDate = false from charListLt_irrefl _] at h2
          simp at h2
    · simp only [Bool.not_eq_true] at h2
      rw [if_neg (by simp [h2])]
      have heq : a.isoDate = b.isoDate := strLt_conn h1 h2
      simp [h1, heq, show strLt b.isoDate b.isoDate = false from charListLt_irrefl _]

theorem senComparator_empty_nonempty {lc : String → String → Int} {a b : SenRecord}
    (ha : a.isoDate = "") (hb : b.isoDate ≠ "") : senComparator lc a b = 1 := by
  unfold senComparator
  rw [if_neg (by simp [ha]), if_pos (by simp [ha, hb])]

theorem senComparator_nonempty_empty {lc : String → String → Int} {a b : SenRecord}
    (ha : a.isoDate ≠ "") (hb : b.isoDate = "") : senComparator lc a b = -1 := by
  unfold senComparator
  rw [if_neg (by simp [hb]), if_neg (by simp [ha]), if_pos (by simp [ha, hb])]

theorem senComparator_both_empty {lc : String → String → Int} {a b : SenRecord}
    (ha : a.isoDate = "") (hb : b.isoDate = "") :
    senComparator lc a b = lc a.committee b.committee := by
  unfold senComparator
  rw [if_neg (by simp [ha]), if_neg (by simp [hb]), if_neg (by simp [ha])]

theorem senComparator_total {lc : String → String → Int} (hTot : LcTotal lc) :
    ∀ a b : SenRecord, senComparator lc a b ≤ 0 ∨ senComparator lc b a ≤ 0 := by
  intro a b
  by_cases ha : a.isoDate = "" <;> by_cases hb : b.isoDate = ""
  · rw [senComparator_both_empty ha hb, senComparator_both_empty hb ha]
    exact hTot _ _
  · rw [senComparator_nonempty_empty hb ha]
    right
    omega
  · rw [senComparator_nonempty_empty ha hb]
    left
    omega
  · rw [senComparator_le_iff ha hb, senComparator_le_iff hb ha]
    by_cases h1 : strLt a.isoDate b.isoDate = true
    · exact Or.inl (Or.inl h1)
    · by_cases h2 : strLt b.isoDate a.isoDate = true
      · exact Or.inr (Or.inl h2)
      · simp only [Bool.not_eq_true] at h1 h2
        have heq : a.isoDate = b.isoDate := strLt_conn h1 h2
        rcases hTot a.committee b.committee with h | h
        · exact Or.inl (Or.inr ⟨heq, h⟩)
        · exact Or.inr (Or.inr ⟨heq.symm, h⟩)

theorem senComparator_trans {lc : String → String → Int} (hTrans : LcTrans lc) :
    ∀ a b c : SenRecord, senComparator lc a b ≤ 0 → senComparator lc b c ≤ 0 →
      senComparator lc a c ≤ 0 := by
  intro a b c hab hbc
  by_cases ha : a.isoDate = ""
  · by_cases hb : b.isoDate = ""
    · by_cases hc : c.isoDate = ""
      · rw [senComparator_both_empty ha hb] at hab
        rw [senComparator_both_empty hb hc] at hbc
        rw [senComparator_both_empty ha hc]
        exact hTrans _ _ _ hab hbc
      · rw [senComparator_empty_nonempty hb hc] at hbc
        omega
    · rw [senComparator_empty_nonempty ha hb] at hab
      omega
  · by_cases hc : c.isoDate = ""
    · rw [senComparator_nonempty_empty ha hc]
      omega
    · by_cases hb : b.isoDate = ""
      · rw [senComparator_empty_nonempty hb hc] at hbc
        omega
      · rw [senComparator_le_iff ha hb] at hab
        rw [senComparator_le_iff hb hc] at hbc
        rw [senComparator_le_iff ha hc]
        rcases hab with hab | ⟨haeq, halc⟩
        · rcases hbc with hbc | ⟨hbeq, -⟩
          · exact Or.inl (strLt_trans hab hbc)
          · exact Or.inl (hbeq ▸ hab)
        · rcases hbc with hbc | ⟨hbeq, hblc⟩
          · exact Or.inl (haeq ▸ hbc)
          · exact Or.inr ⟨haeq.trans hbeq, hTrans _ _ _ halc hblc⟩

theorem sortRecords_sorted (lc : String → String → Int) (hTot : LcTotal lc)
    (hTrans : LcTrans lc) (l : List SenRecord) :
    (sortRecords lc l).Pairwise (fun a b => senComparator lc a b ≤ 0) := by
  haveI : IsTotal SenRecord (fun a b => senComparator lc a b ≤ 0) :=
    ⟨senComparator_total hTot⟩
  haveI : IsTrans SenRecord (fun a b => senComparator lc a b ≤ 0) :=
    ⟨senComparator_trans hTrans⟩
  exact List.sorted_insertionSort _ l

theorem sortRecords_perm (lc : String → String → Int) (l : List SenRecord) :
    (sortRecords lc l).Perm l :=
  List.perm_insertionSort _ l

theorem strLt_irrefl (a : String) : strLt a a = false :=
  charListLt_irrefl _

theorem lcEn_le_iff (a b : String) :
    localeCompareEn a b ≤ 0 ↔
      (charListLt (a.data.map Char.toLower) (b.data.map Char.toLower) = true ∨
       (a.data.map Char.toLower = b.data.map Char.toLower ∧
         (charListLt a.data b.data = true ∨ a = b))) := by
  unfold localeCompareEn
  by_cases h1 : charListLt (a.data.map Char.toLower) (b.data.map Char.toLower) = true
  · rw [if_pos h1]
    simp [h1]
  · simp only [Bool.not_eq_true] at h1
    rw [if_neg (by simp [h1])]
    by_cases h2 : charListLt (b.data.map Char.toLower) (a.data.map Char.toLower) = true
    · rw [if_pos h2]
      constructor
      · intro h
        omega
      · intro h
        rcases h with h | ⟨heq, -⟩
        · rw [h1] at h
          simp at h
        · rw [heq, charListLt_irrefl] at h2
          simp at h2
    · simp only [Bool.not_eq_true] at h2
      rw [if_neg (by simp [h2])]
      have heqLow := charListLt_conn h1 h2
      by_cases h3 : charListLt a.data b.data = true
      · rw [if_pos h3]
        simp [h1, heqLow, h3]
      · simp only [Bool.not_eq_true] at h3
        rw [if_neg (by simp [h3])]
        by_cases h4 : charListLt b.data a.data = true
        · rw [if_pos h4]
          constructor
          · intro h
            omega
          · intro h
            rcases h with h | ⟨-, h | h⟩
            · rw [h1] at h
              simp at h
            · rw [h3] at h
              simp at h
            · rw [h, charListLt_irrefl] at h4
              simp at h4
        · simp only [Bool.not_eq_true] at h4
          rw [if_neg (by simp [h4])]
          have : a = b := by
            have hd := charListLt_conn h3 h4
            calc a = ⟨a.data⟩ := rfl
              _ = ⟨b.data⟩ := by rw [hd]
              _ = b := rfl
          simp [h1, heqLow, this]

theorem localeCompareEn_total : LcTotal localeCompareEn := by
  intro a b
  by_cases hab : localeCompareEn a b ≤ 0
  · exact Or.inl hab
  · right
    rw [lcEn_le_iff] at hab ⊢
    push_neg at hab
    obtain ⟨h1, h2⟩ := hab
    simp only [Bool.not_eq_true] at h1
    by_cases hba : charListLt (b.data.map Char.toLower) (a.data.map Char.toLower) = true
    · exact Or.inl hba
    · simp only [Bool.not_eq_true] at hba
      have heq := charListLt_conn h1 hba
      right
      refine ⟨heq.symm, ?_⟩
      have h3 := h2 heq
      push_neg at h3
      obtain ⟨h4, h5⟩ := h3
      simp only [Bool.not_eq_true] at h4
      by_cases h6 : charListLt b.data a.data = true
      · exact Or.inl h6
      · simp only [Bool.not_eq_true] at h6
        right
        have : a = b := by
          have hd := charListLt_conn h4 h6
          calc a = ⟨a.data⟩ := rfl
            _ = ⟨b.data⟩ := by rw [hd]
            _ = b := rfl
        exact this.symm

theorem localeCompareEn_trans : LcTrans localeCompareEn := by
  intro a b c hab hbc
  rw [lcEn_le_iff] at hab hbc ⊢
  rcases hab with hab | ⟨habeq, habd⟩
  · rcases hbc with hbc | ⟨hbceq, -⟩
    · exact Or.inl (charListLt_trans hab hbc)
    · exact Or.inl (hbceq ▸ hab)
  · rcases hbc with hbc | ⟨hbceq, hbcd⟩
    · exact Or.inl (habeq ▸ hbc)
    · refine Or.inr ⟨habeq.trans hbceq, ?_⟩
      rcases habd with habd | rfl
      · rcases hbcd with hbcd | rfl
        · exact Or.inl (charListLt_trans habd hbcd)
        · exact Or.inl habd
      · exact hbcd

theorem digitChar_isDig (n : Nat) : isDig (digitChar n) = true := by
  unfold digitChar
  split <;> decide

theorem isDig_mem {c : Char} (h : isDig c = true) :
    c ∈ ['0', '1', '2', '3', '4', '5', '6', '7', '8', '9'] := by
  simp only [isDig, Bool.and_eq_true, decide_eq_true_eq] at h
  obtain ⟨h1, h2⟩ := h
  have hlo : (48 : Nat) ≤ c.val.toNat := h1
  have hhi : c.val.toNat ≤ 57 := h2
  have hcases : c.val.toNat = 48 ∨ c.val.toNat = 49 ∨ c.val.toNat = 50 ∨
      c.val.toNat = 51 ∨ c.val.toNat = 52 ∨ c.val.toNat = 53 ∨ c.val.toNat = 54 ∨
      c.val.toNat = 55 ∨ c.val.toNat = 56 ∨ c.val.toNat = 57 := by omega
  simp only [List.mem_cons, List.not_mem_nil, or_false]
  rcases hcases with hk | hk | hk | hk | hk | hk | hk | hk | hk | hk
  · exact Or.inl (Char.eq_of_val_eq (UInt32.ext hk))
  · exact Or.inr (Or.inl (Char.eq_of_val_eq (UInt32.ext hk)))
  · exact Or.inr (Or.inr (Or.inl (Char.eq_of_val_eq (UInt32.ext hk))))
  · exact Or.inr (Or.inr (Or.inr (Or.inl (Char.eq_of_val_eq (UInt32.ext hk)))))
  · exact Or.inr (Or.inr (Or.inr (Or.inr (Or.inl (Char.eq_of_val_eq (UInt32.ext hk))))))
  · exact Or.inr (Or.inr (Or.inr (Or.inr (Or.inr (Or.inl
      (Char.eq_of_val_eq (UInt32.ext hk)))))))
  · exact Or.inr (Or.inr (Or.inr (Or.inr (Or.inr (Or.inr (Or.inl
      (Char.eq_of_val_eq (UInt32.ext hk))))))))
  · exact Or.inr (Or.inr (Or.inr (Or.inr (Or.inr (Or.inr (Or.inr (Or.inl
      (Char.eq_of_val_eq (UInt32.ext hk)))))))))
  · exact Or.inr (Or.inr (Or.inr (Or.inr (Or.inr (Or.inr (Or.inr (Or.inr (Or.inl
      (Char.eq_of_val_eq (UInt32.ext hk))))))))))
  · exact Or.inr (Or.inr (Or.inr (Or.inr (Or.inr (Or.inr (Or.inr (Or.inr (Or.inr
      (Char.eq_of_val_eq (UInt32.ext hk))))))))))

theorem isNormWs_of_isDig {c : Char} (h : isDig c = true) : isNormWs c = false := by
  have := isDig_mem h
  simp only [List.mem_cons, List.not_mem_nil, or_false] at this
  rcases this with rfl | rfl | rfl | rfl | rfl | rfl | rfl | rfl | rfl | rfl <;> decide

theorem isNormWs_dash : isNormWs '-' = false := by decide

theorem anchored_shape {s : String} (h : isIsoAnchored s = true) :
    ∃ a b c d e f g i : Char, s.data = [a, b, c, d, '-', e, f, '-', g, i] ∧
      isDig a = true ∧ isDig b = true ∧ isDig c = true ∧ isDig d = true ∧
      isDig e = true ∧ isDig f = true ∧ isDig g = true ∧ isDig i = true := by
  unfold isIsoAnchored at h
  simp only [Bool.and_eq_true, decide_eq_true_eq] at h
  obtain ⟨hsh, hlen⟩ := h
  unfold isoShapeAt at hsh
  split at hsh
  · rename_i a b c d e f g i rest heq
    simp only [Bool.and_eq_true] at hsh
    obtain ⟨⟨⟨⟨⟨⟨⟨ha, hb⟩, hc⟩, hd⟩, he⟩, hf⟩, hg⟩, hi⟩ := hsh
    have hrest : rest = [] := by
      rw [heq] at hlen
      simp only [List.length_cons] at hlen
      have hr0 : rest.length = 0 := by omega
      exact List.length_eq_zero.mp hr0
    refine ⟨a, b, c, d, e, f, g, i, ?_, ha, hb, hc, hd, he, hf, hg, hi⟩
    rw [heq, hrest]
  · simp at hsh

theorem anchored_no_ws {s : String} (h : isIsoAnchored s = true) :
    ∀ c ∈ s.data, isNormWs c = false := by
  obtain ⟨a, b, c, d, e, f, g, i, hdata, hds⟩ := anchored_shape h
  intro x hx
  rw [hdata] at hx
  simp only [List.mem_cons, List.not_mem_nil, or_false] at hx
  rcases hx with rfl | rfl | rfl | rfl | rfl | rfl | rfl | rfl | rfl | rfl
  · exact isNormWs_of_isDig hds.1
  · exact isNormWs_of_isDig hds.2.1
  · exact isNormWs_of_isDig hds.2.2.1
  · exact isNormWs_of_isDig hds.2.2.2.1
  · exact isNormWs_dash
  · exact isNormWs_of_isDig hds.2.2.2.2.1
  · exact isNormWs_of_isDig hds.2.2.2.2.2.1
  · exact isNormWs_dash
  · exact isNormWs_of_isDig hds.2.2.2.2.2.2.1
  · exact isNormWs_of_isDig hds.2.2.2.2.2.2.2

theorem anchored_norm_eq {s : String} (h : isIsoAnchored s = true) : norm s = s :=
  norm_eq_self (anchored_no_ws h)

theorem anchored_hasIsoSub {s : String} (h : isIsoAnchored s = true) :
    hasIsoSub s.data = true := by
  obtain ⟨a, b, c, d, e, f, g, i, hdata, hds⟩ := anchored_shape h
  rw [hdata]
  simp only [hasIsoSub, Bool.or_eq_true]
  left
  unfold isoShapeAt
  simp [hds.1, hds.2.1, hds.2.2.1, hds.2.2.2.1, hds.2.2.2.2.1, hds.2.2.2.2.2.1,
    hds.2.2.2.2.2.2.1, hds.2.2.2.2.2.2.2]

theorem isoSlice10_anchored (em : Int) : isIsoAnchored (isoSlice10 em) = true := by
  unfold isoSlice10 isIsoAnchored pad4Digits pad2Digits
  simp only [List.cons_append, List.nil_append]
  unfold isoShapeAt
  simp [digitChar_isDig]

theorem parseSenateDate_shape (tzMin : Int) (headerText fallbackYear : String) :
    parseSenateDate tzMin headerText fallbackYear = "" ∨
      isIsoAnchored (parseSenateDate tzMin headerText fallbackYear) = true := by
  unfold parseSenateDate
  dsimp only
  split
  · exact Or.inl rfl
  · split
    · exact Or.inl rfl
    · rename_i p
      split
      · exact Or.inl rfl
      · split
        · exact Or.inl rfl
        · exact Or.inr (isoSlice10_anchored _)

theorem jsOr_empty_iff (a b : String) : jsOr a b = "" ↔ a = "" ∧ b = "" := by
  unfold jsOr
  by_cases h : a = ""
  · rw [if_pos h]; simp [h]
  · rw [if_neg h]; simp [h]

theorem jsOr_of_ne (a b : String) (h : a ≠ "") : jsOr a b = a := by
  unfold jsOr; rw [if_neg h]

theorem jsOr_empty_left (b : String) : jsOr "" b = b := by
  unfold jsOr; rw [if_pos rfl]

theorem jsOr_ne_of_right {a b : String} (h : b ≠ "") : jsOr a b ≠ "" := by
  unfold jsOr; split
  · exact h
  · assumption

theorem toIso_eq_empty {d t : String} (h : toIso d t = "") :
    hasIsoSub (norm d).data = false := by
  cases hb : hasIsoSub (norm d).data
  · rfl
  · exfalso
    unfold toIso at h
    dsimp only at h
    rw [hb] at h
    simp only [Bool.not_true, Bool.false_eq_true, if_false] at h
    have hlen : ∀ u v : String, u ++ v = "" → v.length = 0 := by
      intro u v huv
      have := congrArg String.length huv
      rw [String.length_append] at this
      have h0 : ("" : String).length = 0 := rfl
      rw [h0] at this
      omega
    split at h
    · exact absurd (hlen _ _ h) (by decide)
    · split at h
      · exact absurd (hlen _ _ h) (by decide)
      · exact absurd (hlen _ _ h) (by decide)

theorem iteGuard (c : Prop) [Decidable c] (v : String)
    (h : (if c then v else "") ≠ "") : (if c then v else "") = v := by
  split
  · rfl
  · rename_i hc
    rw [if_neg hc] at h
    exact absurd rfl h

theorem normalizeSenateDate_cases (env : JsEnv) (r : SenRecord) :
    isIsoAnchored (normalizeSenateDate env r) = true ∨
      normalizeSenateDate env r = norm r.date := by
  unfold normalizeSenateDate
  dsimp only
  by_cases h1 : (decide (norm r.date ≠ "") && isIsoAnchored (norm r.date)) = true
  · rw [if_pos h1]
    simp only [Bool.and_eq_true, decide_eq_true_eq] at h1
    exact Or.inl h1.2
  · rw [if_neg h1]
    by_cases h2 : (if norm r.date ≠ "" then
        parseSenateDate env.tzMin (norm r.date) (extractYearFromRecord env r) else "") ≠ ""
    · rw [if_pos h2, iteGuard _ _ h2]
      rw [iteGuard _ _ h2] at h2
      rcases parseSenateDate_shape env.tzMin (norm r.date) (extractYearFromRecord env r) with h | h
      · exact absurd h h2
      · exact Or.inl h
    · rw [if_neg h2]
      by_cases h3 : (decide (norm (jsOr r.dateLabel r.displayDate) ≠ "") &&
          isIsoAnchored (norm (jsOr r.dateLabel r.displayDate))) = true
      · rw [if_pos h3]
        simp only [Bool.and_eq_true, decide_eq_true_eq] at h3
        exact Or.inl h3.2
      · rw [if_neg h3]
        by_cases h4 : (if norm (jsOr r.dateLabel r.displayDate) ≠ "" then
            parseSenateDate env.tzMin (norm (jsOr r.dateLabel r.displayDate))
              (extractYearFromRecord env r) else "") ≠ ""
        · rw [if_pos h4, iteGuard _ _ h4]
          rw [iteGuard _ _ h4] at h4
          rcases parseSenateDate_shape env.tzMin (norm (jsOr r.dateLabel r.displayDate))
            (extractYearFromRecord env r) with h | h
          · exact absurd h h4
          · exact Or.inl h
        · rw [if_neg h4]
          exact Or.inr rfl

theorem normalizeSenateDate_congr (env : JsEnv) (r : SenRecord) (x y : String) :
    normalizeSenateDate env { r with committee := x, time := y } =
      normalizeSenateDate env r := rfl

theorem normalizeSenateDate_congr3 (env : JsEnv) (r : SenRecord) (x y v : String) :
    normalizeSenateDate env { r with committee := x, time := y, isoDate := v } =
      normalizeSenateDate env { r with isoDate := v } :=
  normalizeSenateDate_congr env { r with isoDate := v } x y

theorem ingIso_decomp {env : JsEnv} {r : SenRecord} (h : ingIso env r = "") :
    r.isoDate = "" ∧ toIso (normalizeSenateDate env r) (parseClock r.time) = "" :=
  (jsOr_empty_iff _ _).mp h

theorem ingIso_absorb (env : JsEnv) (r : SenRecord) :
    jsOr (ingIso env r)
      (toIso (normalizeSenateDate env
          { r with committee := norm r.committee, time := parseClock r.time,
                   isoDate := ingIso env r })
        (parseClock r.time)) = ingIso env r := by
  by_cases hI : ingIso env r = ""
  · obtain ⟨hIso0, hToIso⟩ := ingIso_decomp hI
    have hN : normalizeSenateDate env
        { r with committee := norm r.committee, time := parseClock r.time,
                 isoDate := ingIso env r } = normalizeSenateDate env r := by
      rw [normalizeSenateDate_congr3, hI, ← hIso0]
    rw [hN, hI, jsOr_empty_left]
    exact hToIso
  · exact jsOr_of_ne _ _ hI

theorem senateHistoryKey_norm (env : JsEnv) (r : SenRecord) :
    senateHistoryKey env
        { r with committee := norm r.committee, time := parseClock r.time,
                 isoDate := ingIso env r } =
      if norm r.committee = "" || parseClock r.time = "" then ""
      else if ingIso env r ≠ "" then
        lowerStr (⟨(ingIso env r).data.take 10⟩ ++ "|" ++ parseClock r.time ++ "|" ++
          norm r.committee)
      else if norm (jsOr r.date r.dateLabel) = "" then ""
      else lowerStr (norm (jsOr r.date r.dateLabel) ++ "|" ++ parseClock r.time ++ "|" ++
        norm r.committee) := by
  unfold senateHistoryKey
  dsimp only
  rw [show norm (norm r.committee) = norm r.committee from norm_idem _,
      show parseClock (parseClock r.time) = parseClock r.time from parseClock_idem _,
      ingIso_absorb]

theorem ingestKey_guard {env : JsEnv} {r : SenRecord} (h : ingestKey env r ≠ "") :
    norm r.committee ≠ "" ∧ parseClock r.time ≠ "" := by
  unfold ingestKey at h
  by_cases hg : (decide (norm r.committee = "") || decide (parseClock r.time = "")) = true
  · rw [if_pos hg] at h
    exact absurd rfl h
  · simp only [Bool.or_eq_true, decide_eq_true_eq, not_or] at hg
    exact hg

theorem ingestKey_eq_key {env : JsEnv} {r : SenRecord} (h : ingestKey env r ≠ "") :
    ingestKey env r =
      senateHistoryKey env
        { r with committee := norm r.committee, time := parseClock r.time,
                 isoDate := ingIso env r } := by
  obtain ⟨hC, hT⟩ := ingestKey_guard h
  unfold ingestKey
  rw [if_neg (by simp [hC, hT])]

theorem recKey_ingBase (env : JsEnv) (r : SenRecord) (seenAt : String)
    (h : ingestKey env r ≠ "") : recKey (ingBase env r seenAt) = ingestKey env r := by
  obtain ⟨hC, hT⟩ := ingestKey_guard h
  have hkey := ingestKey_eq_key h
  rw [hkey, senateHistoryKey_norm, if_neg (by simp [hC, hT])]
  rw [hkey, senateHistoryKey_norm, if_neg (by simp [hC, hT])] at h
  unfold recKey ingBase
  dsimp only
  by_cases hI : ingIso env r = ""
  · simp only [if_neg (not_not_intro hI)] at h ⊢
    by_cases hF : norm (jsOr r.date r.dateLabel) = ""
    · rw [if_pos hF] at h
      exact absurd rfl h
    · rw [if_neg hF] at h ⊢
      obtain ⟨hIso0, hToIso⟩ := ingIso_decomp hI
      have hAbs : jsOr (normalizeSenateDate env r) (norm (jsOr r.date r.dateLabel)) =
          norm (jsOr r.date r.dateLabel) := by
        by_cases hN : normalizeSenateDate env r = ""
        · rw [hN, jsOr_empty_left]
        · have hSub := toIso_eq_empty hToIso
          rcases normalizeSenateDate_cases env r with hA | hE
          · rw [anchored_norm_eq hA, anchored_hasIsoSub hA] at hSub
            exact absurd hSub (by decide)
          · have hdate : r.date ≠ "" := by
              intro hd
              rw [hE, hd] at hN
              exact hN (by decide)
            rw [hE, jsOr_of_ne _ _ hdate]
            have : jsOr (norm r.date) (norm r.date) = norm r.date := by
              rw [jsOr_of_ne _ _ (by rw [hE] at hN; exact hN)]
            exact this
      rw [hAbs]
  · simp only [if_pos hI]

theorem lookup_cons (k k1 : String) (v1 : SenRecord) (rest : List (String × SenRecord)) :
    ((k1, v1) :: rest).lookup k = if k = k1 then some v1 else rest.lookup k := by
  by_cases h : k = k1
  · rw [if_pos h]
    subst h
    simp [List.lookup]
  · rw [if_neg h]
    show (match k == k1 with
          | true => some v1
          | false => List.lookup k rest) = List.lookup k rest
    rw [show (k == k1) = false from beq_eq_false_iff_ne.mpr h]

theorem lookup_append_none {k : String} {m : List (String × SenRecord)}
    (h : m.lookup k = none) (l : List (String × SenRecord)) :
    (m ++ l).lookup k = l.lookup k := by
  induction m with
  | nil => rfl
  | cons p rest ih =>
    cases p with
    | mk k1 v1 =>
      rw [lookup_cons] at h
      rw [List.cons_append, lookup_cons]
      by_cases he : k = k1
      · rw [if_pos he] at h
        exact absurd h (by simp)
      · rw [if_neg he] at h
        rw [if_neg he]
        exact ih h

theorem lookup_append_some {k : String} {v : SenRecord} {m : List (String × SenRecord)}
    (h : m.lookup k = some v) (l : List (String × SenRecord)) :
    (m ++ l).lookup k = some v := by
  induction m with
  | nil => exact absurd h (by simp [List.lookup])
  | cons p rest ih =>
    cases p with
    | mk k1 v1 =>
      rw [lookup_cons] at h
      rw [List.cons_append, lookup_cons]
      by_cases he : k = k1
      · rw [if_pos he] at h ⊢
        exact h
      · rw [if_neg he] at h
        rw [if_neg he]
        exact ih h

theorem lookup_mapUpdate_ne {k key : String} (h : k ≠ key) (w : SenRecord)
    (m : List (String × SenRecord)) :
    (m.map fun p => if p.1 = key then (key, w) else p).lookup k = m.lookup k := by
  induction m with
  | nil => rfl
  | cons p rest ih =>
    cases p with
    | mk k1 v1 =>
      simp only [List.map_cons]
      by_cases h1 : k1 = key
      · rw [if_pos (show ((k1, v1) : String × SenRecord).1 = key from h1)]
        rw [lookup_cons, lookup_cons, if_neg h, if_neg (fun he => h (h1 ▸ he))]
        exact ih
      · rw [if_neg (show ¬((k1, v1) : String × SenRecord).1 = key from h1)]
        rw [lookup_cons, lookup_cons]
        by_cases he : k = k1
        · rw [if_pos he, if_pos he]
        · rw [if_neg he, if_neg he]
          exact ih

theorem lookup_mapUpdate_self {key : String} {m : List (String × SenRecord)} {e : SenRecord}
    (h : m.lookup key = some e) (w : SenRecord) :
    (m.map fun p => if p.1 = key then (key, w) else p).lookup key = some w := by
  induction m with
  | nil => exact absurd h (by simp [List.lookup])
  | cons p rest ih =>
    cases p with
    | mk k1 v1 =>
      rw [lookup_cons] at h
      simp only [List.map_cons]
      by_cases h1 : k1 = key
      · rw [if_pos (show ((k1, v1) : String × SenRecord).1 = key from h1)]
        rw [lookup_cons, if_pos rfl]
      · rw [if_neg (show ¬((k1, v1) : String × SenRecord).1 = key from h1)]
        rw [lookup_cons, if_neg (fun he => h1 he.symm)]
        rw [if_neg (fun he => h1 he.symm)] at h
        exact ih h

theorem mapUpdate_keys (key : String) (w : SenRecord) (m : List (String × SenRecord)) :
    (m.map fun p => if p.1 = key then (key, w) else p).map Prod.fst = m.map Prod.fst := by
  induction m with
  | nil => rfl
  | cons p rest ih =>
    cases p with
    | mk k1 v1 =>
      simp only [List.map_cons]
      by_cases h1 : k1 = key
      · rw [if_pos (show ((k1, v1) : String × SenRecord).1 = key from h1)]
        dsimp only
        rw [ih, h1]
      · rw [if_neg (show ¬((k1, v1) : String × SenRecord).1 = key from h1)]
        dsimp only
        rw [ih]

theorem lookup_none_not_mem {k : String} {m : List (String × SenRecord)}
    (h : m.lookup k = none) : k ∉ m.map Prod.fst := by
  induction m with
  | nil => simp
  | cons p rest ih =>
    cases p with
    | mk k1 v1 =>
      rw [lookup_cons] at h
      by_cases he : k = k1
      · rw [if_pos he] at h
        exact absurd h (by simp)
      · rw [if_neg he] at h
        simp only [List.map_cons, List.mem_cons]
        rintro (h1 | h1)
        · exact he h1
        · exact ih h h1

theorem mem_of_lookup {k : String} {v : SenRecord} {m : List (String × SenRecord)}
    (h : m.lookup k = some v) : (k, v) ∈ m := by
  induction m with
  | nil => exact absurd h (by simp [List.lookup])
  | cons p rest ih =>
    cases p with
    | mk k1 v1 =>
      rw [lookup_cons] at h
      by_cases he : k = k1
      · rw [if_pos he] at h
        subst he
        rw [show v1 = v from by injection h] at *
        exact List.mem_cons_self _ _
      · rw [if_neg he] at h
        exact List.mem_cons_of_mem _ (ih h)

/-- Invariant on the entries of the merge map: the stored record's dedup
key re-derives the map key, and its committee and time are nonempty. -/
def StoredOk (p : String × SenRecord) : Prop :=
  recKey p.2 = p.1 ∧ p.2.committee ≠ "" ∧ p.2.time ≠ ""

theorem ingest_lookup_ne {env : JsEnv} {r : SenRecord} {k : String}
    (h : ingestKey env r ≠ k) (m : List (String × SenRecord)) (seenAt : String) :
    (ingest env m r seenAt).lookup k = m.lookup k := by
  unfold ingest
  by_cases hk : ingestKey env r = ""
  · rw [if_pos hk]
  · rw [if_neg hk]
    cases hl : m.lookup (ingestKey env r) with
    | none =>
      cases hmk : m.lookup k with
      | some v => rw [lookup_append_some hmk]
      | none =>
        rw [lookup_append_none hmk, lookup_cons, if_neg (fun he => h he.symm)]
        rfl
    | some e => exact lookup_mapUpdate_ne (fun he => h he.symm) _ m

theorem ingest_lookup_self {env : JsEnv} {r : SenRecord}
    (h : ingestKey env r ≠ "") (m : List (String × SenRecord)) (seenAt : String) :
    (ingest env m r seenAt).lookup (ingestKey env r) =
      some (match m.lookup (ingestKey env r) with
            | none => ingNew env r seenAt
            | some e => ingMerged env r seenAt e) := by
  unfold ingest
  rw [if_neg h]
  cases hl : m.lookup (ingestKey env r) with
  | none => rw [lookup_append_none hl, lookup_cons, if_pos rfl]
  | some e => exact lookup_mapUpdate_self hl _

theorem ingest_lookup_mono {env : JsEnv} {r : SenRecord} {k : String}
    {m : List (String × SenRecord)} (h : m.lookup k ≠ none) (seenAt : String) :
    (ingest env m r seenAt).lookup k ≠ none := by
  by_cases hk : ingestKey env r = k
  · by_cases h0 : ingestKey env r = ""
    · unfold ingest
      rw [if_pos h0]
      exact h
    · rw [← hk, ingest_lookup_self h0 m seenAt]
      simp
  · rw [ingest_lookup_ne hk]
    exact h

theorem ingest_stored_ok {env : JsEnv} {m : List (String × SenRecord)}
    (hm : ∀ p ∈ m, StoredOk p) (r : SenRecord) (seenAt : String) :
    ∀ p ∈ ingest env m r seenAt, StoredOk p := by
  unfold ingest
  by_cases hk : ingestKey env r = ""
  · rw [if_pos hk]
    exact hm
  · rw [if_neg hk]
    cases hl : m.lookup (ingestKey env r) with
    | none =>
      intro p hp
      rcases List.mem_append.mp hp with h1 | h1
      · exact hm p h1
      · rw [List.mem_singleton.mp h1]
        exact ⟨recKey_ingBase env r seenAt hk, (ingestKey_guard hk).1, (ingestKey_guard hk).2⟩
    | some e =>
      intro p hp
      rcases List.mem_map.mp hp with ⟨q, hq, hpq⟩
      rw [← hpq]
      by_cases h1 : q.1 = ingestKey env r
      · rw [if_pos h1]
        exact ⟨recKey_ingBase env r seenAt hk, (ingestKey_guard hk).1, (ingestKey_guard hk).2⟩
      · rw [if_neg h1]
        exact hm q hq

theorem ingest_keys_nodup {env : JsEnv} {m : List (String × SenRecord)}
    (hm : (m.map Prod.fst).Nodup) (r : SenRecord) (seenAt : String) :
    ((ingest env m r seenAt).map Prod.fst).Nodup := by
  unfold ingest
  by_cases hk : ingestKey env r = ""
  · rw [if_pos hk]
    exact hm
  · rw [if_neg hk]
    cases hl : m.lookup (ingestKey env r) with
    | none =>
      rw [List.map_append]
      refine List.Nodup.append hm (List.nodup_singleton _) ?_
      intro a ha hb
      rw [show (List.map Prod.fst [(ingestKey env r, ingNew env r seenAt)]) =
          [ingestKey env r] from rfl, List.mem_singleton] at hb
      exact lookup_none_not_mem hl (hb ▸ ha)
    | some e =>
      rw [mapUpdate_keys]
      exact hm

theorem fold_lookup_ne {env : JsEnv} {f : SenRecord → String} {k : String}
    (l : List SenRecord) (h : ∀ q ∈ l, ingestKey env q ≠ k) :
    ∀ m0 : List (String × SenRecord),
      (l.foldl (fun m r => ingest env m r (f r)) m0).lookup k = m0.lookup k := by
  induction l with
  | nil => intro m0; rfl
  | cons a rest ih =>
    intro m0
    rw [List.foldl_cons, ih (fun q hq => h q (List.mem_cons_of_mem _ hq)),
        ingest_lookup_ne (h a (List.mem_cons_self _ _))]

theorem fold_lookup_mono {env : JsEnv} {f : SenRecord → String} {k : String}
    (l : List SenRecord) :
    ∀ m0 : List (String × SenRecord), m0.lookup k ≠ none →
      (l.foldl (fun m r => ingest env m r (f r)) m0).lookup k ≠ none := by
  induction l with
  | nil => intro m0 h; exact h
  | cons a rest ih =>
    intro m0 h
    rw [List.foldl_cons]
    exact ih _ (ingest_lookup_mono h _)

theorem fold_stored_ok {env : JsEnv} {f : SenRecord → String} (l : List SenRecord) :
    ∀ m0 : List (String × SenRecord), (∀ p ∈ m0, StoredOk p) →
      ∀ p ∈ l.foldl (fun m r => ingest env m r (f r)) m0, StoredOk p := by
  induction l with
  | nil => intro m0 h; exact h
  | cons a rest ih =>
    intro m0 h
    rw [List.foldl_cons]
    exact ih _ (ingest_stored_ok h a (f a))

theorem fold_keys_nodup {env : JsEnv} {f : SenRecord → String} (l : List SenRecord) :
    ∀ m0 : List (String × SenRecord), (m0.map Prod.fst).Nodup →
      ((l.foldl (fun m r => ingest env m r (f r)) m0).map Prod.fst).Nodup := by
  induction l with
  | nil => intro m0 h; exact h
  | cons a rest ih =>
    intro m0 h
    rw [List.foldl_cons]
    exact ih _ (ingest_keys_nodup h a (f a))

theorem fold_complete {env : JsEnv} {f : SenRecord → String} {r : SenRecord}
    (l : List SenRecord) (hr : r ∈ l) (hk : ingestKey env r ≠ "") :
    ∀ m0 : List (String × SenRecord),
      (l.foldl (fun m q => ingest env m q (f q)) m0).lookup (ingestKey env r) ≠ none := by
  induction l with
  | nil => cases hr
  | cons a rest ih =>
    intro m0
    rw [List.foldl_cons]
    rcases List.mem_cons.mp hr with he | hmem
    · subst he
      apply fold_lookup_mono rest
      rw [ingest_lookup_self hk m0 (f r)]
      simp
    · exact ih hmem _

theorem merge_lookup_scenario (env : JsEnv) (p c : SenRecord)
    (c1 c2 p1 p2 : List SenRecord)
    (hk : ingestKey env p = ingestKey env c) (hk0 : ingestKey env c ≠ "")
    (hc : ∀ q ∈ c1 ++ c2, ingestKey env q ≠ ingestKey env c)
    (hp : ∀ q ∈ p1 ++ p2, ingestKey env q ≠ ingestKey env c) :
    ((c1 ++ c :: c2).foldl (fun m r => ingest env m r env.now)
        ((p1 ++ p :: p2).foldl (fun m r => ingest env m r (prevSeenAt env r)) [])).lookup
      (ingestKey env c) =
      some (ingMerged env c env.now (ingNew env p (prevSeenAt env p))) := by
  have hPrev : ((p1 ++ p :: p2).foldl (fun m r => ingest env m r (prevSeenAt env r)) []).lookup
      (ingestKey env c) = some (ingNew env p (prevSeenAt env p)) := by
    rw [List.foldl_append, List.foldl_cons]
    have h1 : (p1.foldl (fun m r => ingest env m r (prevSeenAt env r)) []).lookup
        (ingestKey env c) = none := by
      rw [fold_lookup_ne p1 (fun q hq => hp q (List.mem_append_left _ hq))]
      rfl
    rw [fold_lookup_ne p2 (fun q hq => hp q (List.mem_append_right _ hq))]
    have h2 := ingest_lookup_self (show ingestKey env p ≠ "" from hk ▸ hk0)
      (p1.foldl (fun m r => ingest env m r (prevSeenAt env r)) []) (prevSeenAt env p)
    rw [hk] at h2
    rw [h2, h1]
  rw [List.foldl_append, List.foldl_cons]
  rw [fold_lookup_ne c2 (fun q hq => hc q (List.mem_append_right _ hq))]
  have h4 : ((c1.foldl (fun m r => ingest env m r env.now)
      ((p1 ++ p :: p2).foldl (fun m r => ingest env m r (prevSeenAt env r)) []))).lookup
      (ingestKey env c) = some (ingNew env p (prevSeenAt env p)) := by
    rw [fold_lookup_ne c1 (fun q hq => hc q (List.mem_append_left _ hq))]
    exact hPrev
  have h3 := ingest_lookup_self hk0
    (c1.foldl (fun m r => ingest env m r env.now)
      ((p1 ++ p :: p2).foldl (fun m r => ingest env m r (prevSeenAt env r)) [])) env.now
  rw [h3, h4]

theorem merge_pairwise (env : JsEnv) (current previous : List SenRecord) :
    (mergeSenateHistory env current previous).Pairwise
      (fun a b => recKey a ≠ recKey b) := by
  unfold mergeSenateHistory
  dsimp only
  have hOk := @fold_stored_ok env (fun _ => env.now) current
    (previous.foldl (fun m r => ingest env m r (prevSeenAt env r)) [])
    (@fold_stored_ok env (prevSeenAt env) previous []
      (fun p hp => absurd hp (List.not_mem_nil p)))
  have hNd := @fold_keys_nodup env (fun _ => env.now) current
    (previous.foldl (fun m r => ingest env m r (prevSeenAt env r)) [])
    (@fold_keys_nodup env (prevSeenAt env) previous [] List.nodup_nil)
  rw [List.pairwise_map, List.pairwise_map]
  have hNd' := (List.pairwise_map).mp hNd
  refine hNd'.imp_of_mem ?_
  intro a b ha hb hab
  have h1 := (hOk a ha).1
  have h2 := (hOk b hb).1
  show recKey (finalFill env a.2) ≠ recKey (finalFill env b.2)
  rw [show recKey (finalFill env a.2) = recKey a.2 from rfl,
      show recKey (finalFill env b.2) = recKey b.2 from rfl, h1, h2]
  exact hab

theorem merge_complete (env : JsEnv) (current previous : List SenRecord) (r : SenRecord)
    (hr : r ∈ current ∨ r ∈ previous) (hk : ingestKey env r ≠ "") :
    ∃ v ∈ mergeSenateHistory env current previous, recKey v = ingestKey env r := by
  unfold mergeSenateHistory
  dsimp only
  have hlk : ((current.foldl (fun m q => ingest env m q env.now)
      (previous.foldl (fun m q => ingest env m q (prevSeenAt env q)) []))).lookup
      (ingestKey env r) ≠ none := by
    rcases hr with h | h
    · exact @fold_complete env (fun _ => env.now) r current h hk _
    · apply @fold_lookup_mono env (fun _ => env.now) (ingestKey env r) current
      exact @fold_complete env (prevSeenAt env) r previous h hk []
  cases hw : ((current.foldl (fun m q => ingest env m q env.now)
      (previous.foldl (fun m q => ingest env m q (prevSeenAt env q)) []))).lookup
      (ingestKey env r) with
  | none => exact absurd hw hlk
  | some w =>
    refine ⟨finalFill env w,
      List.mem_map_of_mem _ (List.mem_map_of_mem _ (mem_of_lookup hw)), ?_⟩
    have hOk := @fold_stored_ok env (fun _ => env.now) current
      (previous.foldl (fun m q => ingest env m q (prevSeenAt env q)) [])
      (@fold_stored_ok env (prevSeenAt env) previous []
        (fun p hp => absurd hp (List.not_mem_nil p)))
      (ingestKey env r, w) (mem_of_lookup hw)
    exact hOk.1

theorem ingestKey_of_guard {env : JsEnv} {r : SenRecord}
    (h : norm r.committee = "" ∨ parseClock r.time = "") : ingestKey env r = "" := by
  unfold ingestKey
  rcases h with h | h
  · rw [if_pos (by simp [h])]
  · rw [if_pos (by simp [h])]

theorem ingest_drop {env : JsEnv} {m : List (String × SenRecord)} {r : SenRecord}
    {seenAt : String} (h : ingestKey env r = "") : ingest env m r seenAt = m := by
  unfold ingest
  rw [if_pos h]

theorem merge_omit_current (env : JsEnv) (c1 c2 previous : List SenRecord) (r : SenRecord)
    (h : ingestKey env r = "") :
    mergeSenateHistory env (c1 ++ r :: c2) previous =
      mergeSenateHistory env (c1 ++ c2) previous := by
  unfold mergeSenateHistory
  dsimp only
  rw [List.foldl_append, List.foldl_append, List.foldl_cons, ingest_drop h]

theorem merge_omit_previous (env : JsEnv) (current p1 p2 : List SenRecord) (r : SenRecord)
    (h : ingestKey env r = "") :
    mergeSenateHistory env current (p1 ++ r :: p2) =
      mergeSenateHistory env current (p1 ++ p2) := by
  unfold mergeSenateHistory
  dsimp only
  rw [List.foldl_append, List.foldl_append, List.foldl_cons, ingest_drop h]

theorem merge_nonempty (env : JsEnv) (current previous : List SenRecord)
    (hnow : env.now ≠ "") :
    ∀ v ∈ mergeSenateHistory env current previous,
      v.committee ≠ "" ∧ v.time ≠ "" ∧ v.firstSeenAt ≠ "" ∧ v.lastSeenAt ≠ "" := by
  unfold mergeSenateHistory
  dsimp only
  intro v hv
  rcases List.mem_map.mp hv with ⟨w, hw, hvw⟩
  rcases List.mem_map.mp hw with ⟨pq, hpq, hwpq⟩
  have hOk := @fold_stored_ok env (fun _ => env.now) current
    (previous.foldl (fun m q => ingest env m q (prevSeenAt env q)) [])
    (@fold_stored_ok env (prevSeenAt env) previous []
      (fun p hp => absurd hp (List.not_mem_nil p)))
    pq hpq
  rw [← hvw, ← hwpq]
  exact ⟨hOk.2.1, hOk.2.2, jsOr_ne_of_right hnow, jsOr_ne_of_right hnow⟩

theorem jsOr_absorb (a b : String) : jsOr (jsOr a b) b = jsOr a b := by
  by_cases h : a = ""
  · rw [h, jsOr_empty_left]
    by_cases hb : b = ""
    · rw [hb, jsOr_empty_left]
    · rw [jsOr_of_ne _ _ hb]
  · rw [jsOr_of_ne _ _ h, jsOr_of_ne _ _ h]

theorem decorateRecord_idem (r : SenRecord) :
    decorateRecord (decorateRecord r) = decorateRecord r := by
  unfold decorateRecord
  dsimp only
  rw [jsOr_absorb]

theorem anchored_no_jsws {s : String} (h : isIsoAnchored s = true) :
    ∀ c ∈ s.data, isJsWs c = false := by
  intro c hc
  have hn := anchored_no_ws h c hc
  unfold isNormWs at hn
  exact (Bool.or_eq_false_iff.mp hn).1

theorem stripTrailingParen_anchored {s : String} (h : isIsoAnchored s = true) :
    stripTrailingParen s.data = s.data := by
  obtain ⟨a, b, c, d, e, f, g, i, hdata, hds⟩ := anchored_shape h
  rw [hdata]
  unfold stripTrailingParen
  split
  · rename_i rest heq
    rw [show ([a, b, c, d, '-', e, f, '-', g, i] : List Char).reverse =
        [i, g, '-', f, e, '-', d, c, b, a] from by simp] at heq
    injection heq with h1 _
    have hIi := hds.2.2.2.2.2.2.2
    rw [h1] at hIi
    exact absurd hIi (by decide)
  · rfl

theorem class_toLower {c : Char} (h : isDig c = true ∨ c = '-') :
    c.toLower ≠ 's' ∧ c.toLower ≠ 'n' ∧ c.toLower ≠ 'r' ∧ c.toLower ≠ 't' := by
  rcases h with h | h
  · have hm := isDig_mem h
    simp only [List.mem_cons, List.not_mem_nil, or_false] at hm
    rcases hm with rfl | rfl | rfl | rfl | rfl | rfl | rfl | rfl | rfl | rfl <;> exact by decide
  · subst h
    decide

theorem ordinalSuffix_none {a b : Char} {r : List Char}
    (h : a.toLower ≠ 's' ∧ a.toLower ≠ 'n' ∧ a.toLower ≠ 'r' ∧ a.toLower ≠ 't') :
    Fetch.ordinalSuffix (a :: b :: r) = none := by
  unfold Fetch.ordinalSuffix
  dsimp only
  rw [if_neg]
  intro hor
  simp only [Bool.or_eq_true, decide_eq_true_eq] at hor
  rcases hor with ((h1 | h1) | h1) | h1
  · exact h.1 (congrArg Prod.fst h1)
  · exact h.2.1 (congrArg Prod.fst h1)
  · exact h.2.2.1 (congrArg Prod.fst h1)
  · exact h.2.2.2 (congrArg Prod.fst h1)

theorem ordinalSuffix_clean {u : List Char}
    (hu : ∀ x ∈ u, isDig x = true ∨ x = '-') : Fetch.ordinalSuffix u = none := by
  match u with
  | [] => rfl
  | [e] => rfl
  | e :: f :: r4 =>
    exact ordinalSuffix_none (class_toLower (hu e (List.mem_cons_self _ _)))

theorem stripOrdinalsGo_clean (fuel : Nat) :
    ∀ (b : Bool) (l : List Char), (∀ c ∈ l, isDig c = true ∨ c = '-') →
      Fetch.stripOrdinalsGo fuel b l = l := by
  induction fuel with
  | zero => intro b l _; rfl
  | succ n ih =>
    intro b l h
    cases l with
    | nil => rfl
    | cons c rest =>
      have hrest : ∀ x ∈ rest, isDig x = true ∨ x = '-' :=
        fun x hx => h x (List.mem_cons_of_mem _ hx)
      rw [Fetch.stripOrdinalsGo.eq_def]
      have key : ∀ (o : Option (List Char × List Char)), o = none →
          o.elim (c :: Fetch.stripOrdinalsGo n (isWordChar c) rest)
            (fun m => m.1 ++ Fetch.stripOrdinalsGo n true m.2) = c :: rest := by
        intro o ho
        subst ho
        show c :: Fetch.stripOrdinalsGo n (isWordChar c) rest = c :: rest
        rw [ih _ _ hrest]
      apply key
      by_cases hb : (!b && isDig c) = true
      · rw [if_pos hb]
        cases rest with
        | nil => rfl
        | cons d r2 =>
          have hr2 : Fetch.ordinalSuffix r2 = none :=
            ordinalSuffix_clean (fun x hx => hrest x (List.mem_cons_of_mem _ hx))
          have hrest2 : Fetch.ordinalSuffix (d :: r2) = none := ordinalSuffix_clean hrest
          dsimp only
          rw [hr2, hrest2]
          cases hdig : isDig d <;> rfl
      · rw [if_neg hb]

theorem stripOrdinals_anchored {s : String} (h : isIsoAnchored s = true) :
    Fetch.stripOrdinals s.data = s.data := by
  obtain ⟨a, b, c, d, e, f, g, i, hdata, hds⟩ := anchored_shape h
  have hcl : ∀ x ∈ s.data, isDig x = true ∨ x = '-' := by
    intro x hx
    rw [hdata] at hx
    simp only [List.mem_cons, List.not_mem_nil, or_false] at hx
    rcases hx with rfl | rfl | rfl | rfl | rfl | rfl | rfl | rfl | rfl | rfl
    · exact Or.inl hds.1
    · exact Or.inl hds.2.1
    · exact Or.inl hds.2.2.1
    · exact Or.inl hds.2.2.2.1
    · exact Or.inr rfl
    · exact Or.inl hds.2.2.2.2.1
    · exact Or.inl hds.2.2.2.2.2.1
    · exact Or.inr rfl
    · exact Or.inl hds.2.2.2.2.2.2.1
    · exact Or.inl hds.2.2.2.2.2.2.2
  exact stripOrdinalsGo_clean _ _ _ hcl

theorem anchored_ne_empty {s : String} (h : isIsoAnchored s = true) : s ≠ "" := by
  obtain ⟨a, b, c, d, e, f, g, i, hdata, _⟩ := anchored_shape h
  intro he
  rw [he] at hdata
  have hlen := congrArg List.length hdata
  simp at hlen

theorem fetch_parseSenateDate_iso {s : String} (h : isIsoAnchored s = true)
    (tzMin : Int) (currentYear : Nat) (dateParse : String → Option Int) :
    Fetch.parseSenateDate tzMin currentYear dateParse s = s := by
  unfold Fetch.parseSenateDate
  dsimp only
  rw [fetchNorm_eq_self (anchored_no_jsws h), stripTrailingParen_anchored h,
      stripOrdinals_anchored h,
      show (⟨s.data⟩ : String) = s from rfl,
      if_neg (anchored_ne_empty h), if_pos h]

theorem normalizeSenateDate_iso (env : JsEnv) (r : SenRecord)
    (h : isIsoAnchored r.date = true) : normalizeSenateDate env r = r.date := by
  unfold normalizeSenateDate
  dsimp only
  rw [anchored_norm_eq h, if_pos (by simp [anchored_ne_empty h, h])]

theorem strAppend_assoc (a b c : String) : (a ++ b) ++ c = a ++ (b ++ c) := by
  show (⟨(a.data ++ b.data) ++ c.data⟩ : String) = ⟨a.data ++ (b.data ++ c.data)⟩
  exact congrArg String.mk (List.append_assoc a.data b.data c.data)

theorem dedupeBy_eq_spec (key : α → String) (l : List α) :
    dedupeBy key l = dedupeSpec key l := by
  unfold dedupeBy
  rw [dedupeByGo_eq_spec]
  congr 1
  apply List.filter_eq_self.mpr
  intro a _
  simp

/-- Claim C1 (counterexample to the original statement): for the key
shared by `currRec` (current scrape) and `prevRec` (previous history),
`venue` and `status` are non-empty on the previous record and empty or
defaulted on the current one, yet the merged record does not carry the
previous values: `venue` is lost entirely and `status` reverts to
`"Scheduled"`. -/
theorem merge_field_fallback_counterexample :
    prevRec.venue = "Main Hall" ∧ currRec.venue = "" ∧
    prevRec.status = "Cancelled" ∧ currRec.status = "" ∧
    ingestKey envUTC currRec = ingestKey envUTC prevRec ∧
    ingestKey envUTC currRec ≠ "" ∧
    (mergeSenateHistory envUTC [currRec] [prevRec]).map
      (fun r => (r.venue, r.status)) = [("", "Scheduled")] := by decide

/-- Claim C1 (amended): for a merge key produced by exactly one
current-scrape record `c` and one previous-history record `p`, the
output record for that key takes `agenda` and `notes` from the current
record with fallback to the previous record's stored value when the
current one normalizes to empty, while `venue` is always the current
record's normalized venue and `status` is always derived from the
current record (previous non-empty `venue`/`status` values are NOT
preserved). -/
theorem merge_field_fallback_amended (env : JsEnv) (p c : SenRecord)
    (current previous c1 c2 p1 p2 : List SenRecord)
    (hcur : current = c1 ++ c :: c2) (hprev : previous = p1 ++ p :: p2)
    (hk : ingestKey env p = ingestKey env c) (hk0 : ingestKey env c ≠ "")
    (hc : ∀ q ∈ c1 ++ c2, ingestKey env q ≠ ingestKey env c)
    (hp : ∀ q ∈ p1 ++ p2, ingestKey env q ≠ ingestKey env c) :
    ∃ v ∈ mergeSenateHistory env current previous,
      v.agenda = jsOr (norm c.agenda) (norm p.agenda) ∧
      v.notes = jsOr (norm c.notes) (norm p.notes) ∧
      v.venue = norm c.venue ∧
      v.status = jsOr (norm (jsOr c.status "Scheduled")) "Scheduled" := by
  subst hcur
  subst hprev
  have hlk := merge_lookup_scenario env p c c1 c2 p1 p2 hk hk0 hc hp
  refine ⟨finalFill env (ingMerged env c env.now (ingNew env p (prevSeenAt env p))),
    ?_, rfl, rfl, rfl, rfl⟩
  unfold mergeSenateHistory
  dsimp only
  exact List.mem_map_of_mem _ (List.mem_map_of_mem _ (mem_of_lookup hlk))

/-- Claim C1 witness: the amended theorem instantiated on `currRec` and
`prevRec` under `envUTC`. -/
theorem merge_field_fallback_witness :
    ∃ v ∈ mergeSenateHistory envUTC [currRec] [prevRec],
      v.agenda = jsOr (norm currRec.agenda) (norm prevRec.agenda) ∧
      v.notes = jsOr (norm currRec.notes) (norm prevRec.notes) ∧
      v.venue = norm currRec.venue ∧
      v.status = jsOr (norm (jsOr currRec.status "Scheduled")) "Scheduled" :=
  merge_field_fallback_amended envUTC prevRec currRec [currRec] [prevRec] [] [] [] []
    rfl rfl (by decide) (by decide) (by simp) (by simp)

/-- Claim C2: an existing history file whose content is not valid JSON
makes `readJson` throw (`JSON.parse`'s `SyntaxError` is not caught —
only `ENOENT` is), so `main` rejects and the run fails with exit code 1
instead of continuing on an empty baseline; the same holds for any
non-`ENOENT` read error such as `EACCES`.  Only a missing file or an
empty/whitespace file yields the `null` (empty-baseline) result. -/
theorem readJson_corruption_throws :
    isThrown (mainHistoryBaseline (FsRead.ok "not json")) = true ∧
    isThrown (mainHistoryBaseline (FsRead.fsError "EACCES")) = true ∧
    readGaveNull (readJson (FsRead.ok "not json")) = false ∧
    readGaveNull (readJson (FsRead.fsError "ENOENT")) = true ∧
    readGaveNull (readJson (FsRead.ok "  ")) = true := by decide

/-- Claim C3: `parseSenateDate` builds the date with `new Date(...)`
(local midnight) and reads it back through `toISOString()` (UTC), so in
any timezone east of UTC — e.g. UTC+8, the Philippines — the resolved
calendar day shifts back by one ("August 12" resolves to `2025-08-11`),
while UTC and western offsets keep the named day; additionally a bare
"Month Day, Year" label (no weekday prefix) never resolves because the
weekday-dropping regex consumes the month word. -/
theorem parseSenateDate_timezone_shift :
    parseSenateDate 480 "Tuesday, August 12, 2025" "" = "2025-08-11" ∧
    parseSenateDate 0 "Tuesday, August 12, 2025" "" = "2025-08-12" ∧
    parseSenateDate (-300) "Tuesday, August 12, 2025" "" = "2025-08-12" ∧
    parseSenateDate 480 "August 12, 2025" "" = "" := by decide

/-- Claim C4 (counterexample to the original statement): in
`build-static-data.js`, `parseSenateDate` applied to a string already in
`YYYY-MM-DD` form returns `""`, not the string (its month/day regex
requires an alphabetic month token). -/
theorem iso_round_trip_counterexample :
    isIsoAnchored "2025-08-12" = true ∧
    parseSenateDate 480 "2025-08-12" "" = "" ∧
    parseSenateDate 0 "2025-08-12" "" = "" := by decide

/-- Claim C4 (amended): the round trip holds for the `fetch.js`
`parseSenateDate` (which checks `/^\d{4}-\d{2}-\d{2}$/` on the cleaned
label and returns it unchanged) and for `normalizeSenateDate` in
`build-static-data.js` (which returns an already-ISO `record.date`
unchanged before ever calling its `parseSenateDate`); the bare
`build-static-data.js` `parseSenateDate` itself returns `""` on ISO
input. -/
theorem iso_round_trip_amended (tzMin : Int) (currentYear : Nat)
    (dateParse : String → Option Int) (env : JsEnv) (r : SenRecord)
    (h : isIsoAnchored r.date = true) :
    Fetch.parseSenateDate tzMin currentYear dateParse r.date = r.date ∧
    normalizeSenateDate env r = r.date :=
  ⟨fetch_parseSenateDate_iso h tzMin currentYear dateParse,
   normalizeSenateDate_iso env r h⟩

/-- Claim C4 witness: the amended theorem at `prevRec` (whose `date` is
`"2025-08-12"`). -/
theorem iso_round_trip_witness :
    Fetch.parseSenateDate 480 2025 (fun _ => none) prevRec.date = prevRec.date ∧
    normalizeSenateDate envUTC prevRec = prevRec.date :=
  iso_round_trip_amended 480 2025 (fun _ => none) envUTC prevRec (by decide)

/-- Claim C5 (counterexample to the original statement): the dedup key
of an input record with an empty committee is present in the input, but
the record is dropped by the merge, so no output record carries any key
— the original "every key present in either input appears in the
output" is false. -/
theorem merge_key_counterexample :
    recKey noCommitteeRec = "2025-08-12|10:00 am|" ∧
    mergeSenateHistory envUTC [noCommitteeRec] [] = [] := by decide

/-- Claim C5 (amended): every input record whose merge key (normalized
committee, canonical time, resolved date) is nonempty yields an output
record whose dedup key equals that merge key, and no dedup key appears
on two distinct output records. -/
theorem merge_key_complete_amended (env : JsEnv) (current previous : List SenRecord) :
    (∀ r, (r ∈ current ∨ r ∈ previous) → ingestKey env r ≠ "" →
      ∃ v ∈ mergeSenateHistory env current previous, recKey v = ingestKey env r) ∧
    (mergeSenateHistory env current previous).Pairwise (fun a b => recKey a ≠ recKey b) :=
  ⟨fun r hr hk => merge_complete env current previous r hr hk,
   merge_pairwise env current previous⟩

/-- Claim C5 witness: the amended theorem's completeness part at
`currRec` under `envUTC`. -/
theorem merge_key_complete_witness :
    ∃ v ∈ mergeSenateHistory envUTC [currRec] [prevRec],
      recKey v = ingestKey envUTC currRec :=
  (merge_key_complete_amended envUTC [currRec] [prevRec]).1 currRec
    (Or.inl (by simp)) (by decide)

/-- Claim C6 (counterexample to the original statement): `toIso` tests
its date with an unanchored regexp, so a date that does not match
`YYYY-MM-DD` (here with a junk prefix) still yields a timestamp instead
of `''`. -/
theorem toIso_anchor_counterexample :
    isIsoAnchored "x2025-08-12" = false ∧
    toIso "x2025-08-12" "" = "x2025-08-12T00:00:00" := by decide

/-- Claim C6 (amended): `toIso date time` returns `""` exactly when the
normalized date contains no `YYYY-MM-DD` substring; otherwise it puts
the whole normalized date (not just the matched part) before `"T"`:
with an empty time it appends `"T00:00:00"`, and for an anchored
`YYYY-MM-DD` date the time is parsed as `H[:MM] [AM|PM]` with PM adding
12 to hours below 12, 12 AM becoming hour 0, 12 PM staying 12, and an
unparsable time falling back to `"T00:00:00"`. -/
theorem toIso_spec_amended (d t : String) :
    (toIso d t = "" ↔ hasIsoSub (norm d).data = false) ∧
    (hasIsoSub (norm d).data = true → toIso d "" = norm d ++ "T00:00:00") ∧
    (isIsoAnchored d = true →
      toIso d "12:00 PM" = d ++ "T12:00:00" ∧
      toIso d "12:00 AM" = d ++ "T00:00:00" ∧
      toIso d "1:30 PM" = d ++ "T13:30:00" ∧
      toIso d "9:05 AM" = d ++ "T09:05:00" ∧
      toIso d "TBA" = d ++ "T00:00:00") := by
  refine ⟨⟨toIso_eq_empty, ?_⟩, ?_, ?_⟩
  · intro h
    unfold toIso
    dsimp only
    rw [h, if_pos (by decide)]
  · intro h
    unfold toIso
    dsimp only
    rw [h, if_neg (by decide), if_pos rfl]
  · intro hd
    have hnorm := anchored_norm_eq hd
    have hsub := anchored_hasIsoSub hd
    refine ⟨?_, ?_, ?_, ?_, ?_⟩
    · unfold toIso
      dsimp only
      rw [hnorm, hsub, if_neg (by decide), if_neg (by decide),
          show clockFind (norm "12:00 PM").data = some (12, some 0, some true) from by decide]
      dsimp only
      rw [strAppend_assoc, strAppend_assoc, strAppend_assoc, strAppend_assoc]
      rfl
    · unfold toIso
      dsimp only
      rw [hnorm, hsub, if_neg (by decide), if_neg (by decide),
          show clockFind (norm "12:00 AM").data = some (12, some 0, some false) from by decide]
      dsimp only
      rw [strAppend_assoc, strAppend_assoc, strAppend_assoc, strAppend_assoc]
      rfl
    · unfold toIso
      dsimp only
      rw [hnorm, hsub, if_neg (by decide), if_neg (by decide),
          show clockFind (norm "1:30 PM").data = some (1, some 30, some true) from by decide]
      dsimp only
      rw [strAppend_assoc, strAppend_assoc, strAppend_assoc, strAppend_assoc]
      rfl
    · unfold toIso
      dsimp only
      rw [hnorm, hsub, if_neg (by decide), if_neg (by decide),
          show clockFind (norm "9:05 AM").data = some (9, some 5, some false) from by decide]
      dsimp only
      rw [strAppend_assoc, strAppend_assoc, strAppend_assoc, strAppend_assoc]
      rfl
    · unfold toIso
      dsimp only
      rw [hnorm, hsub, if_neg (by decide), if_neg (by decide),
          show clockFind (norm "TBA").data = none from by decide]

/-- Claim C6 witness: the amended theorem at the anchored date
`"2025-08-12"`. -/
theorem toIso_spec_witness :
    toIso "2025-08-12" "12:00 PM" = "2025-08-12" ++ "T12:00:00" ∧
    toIso "2025-08-12" "12:00 AM" = "2025-08-12" ++ "T00:00:00" ∧
    toIso "2025-08-12" "1:30 PM" = "2025-08-12" ++ "T13:30:00" ∧
    toIso "2025-08-12" "9:05 AM" = "2025-08-12" ++ "T09:05:00" ∧
    toIso "2025-08-12" "TBA" = "2025-08-12" ++ "T00:00:00" :=
  (toIso_spec_amended "2025-08-12" "").2.2 (by decide)

/-- Claim C7: both dedup passes (the senate loop in
`deriveSenateRecordsFromHtml` and the house filter in
`parseHouseWeeklyPrint`) output no two records with an equal
case-insensitive `date|time|committee` key, the output is a subsequence
of the input, and it is exactly the first occurrence of each key in
input order (the specification-side `dedupeSpec`). -/
theorem dedupe_first_occurrence (l : List SenRecord) (rows : List Fetch.HouseRow) :
    (dedupeSenate l).Pairwise (fun a b => recKey a ≠ recKey b) ∧
    List.Sublist (dedupeSenate l) l ∧
    dedupeSenate l = dedupeSpec recKey l ∧
    (Fetch.dedupeHouse rows).Pairwise (fun a b => Fetch.keyOf a ≠ Fetch.keyOf b) ∧
    List.Sublist (Fetch.dedupeHouse rows) rows ∧
    Fetch.dedupeHouse rows = dedupeSpec Fetch.keyOf rows :=
  ⟨dedupeByGo_pairwise recKey [] l, dedupeByGo_sublist recKey [] l,
   dedupeBy_eq_spec recKey l,
   dedupeByGo_pairwise Fetch.keyOf [] rows, dedupeByGo_sublist Fetch.keyOf [] rows,
   dedupeBy_eq_spec Fetch.keyOf rows⟩

/-- Claim C8 (counterexample to the original statement): with empty
`isoDate`s, committees `"B"` and `"a"` are ordered `["a", "B"]` by the
comparator's `localeCompare` (case-insensitive primary under en-US
collation), which is not ascending in codepoint-lexicographic order
(`"B" < "a"` lexicographically). -/
theorem sortRecords_lex_counterexample :
    sortRecords localeCompareEn [recB, recA] = [recA, recB] ∧
    strLt recA.committee recB.committee = false ∧
    recA.committee ≠ recB.committee := by decide

/-- Claim C8 (amended): `sortRecords` permutes its input so that any
two records in order satisfy: both have `isoDate` and are ordered by
`isoDate` ascending with `localeCompare` on `committee` breaking ties;
or the record without `isoDate` comes after the one with it; or both
lack `isoDate` and are ordered by `localeCompare` on `committee`
(locale order, not codepoint-lexicographic order). -/
theorem sortRecords_spec_amended (l : List SenRecord) :
    List.Perm (sortRecords localeCompareEn l) l ∧
    (sortRecords localeCompareEn l).Pairwise (fun a b =>
      (a.isoDate ≠ "" ∧ b.isoDate ≠ "" ∧
        (strLt a.isoDate b.isoDate = true ∨
          (a.isoDate = b.isoDate ∧ localeCompareEn a.committee b.committee ≤ 0))) ∨
      (a.isoDate ≠ "" ∧ b.isoDate = "") ∨
      (a.isoDate = "" ∧ b.isoDate = "" ∧
        localeCompareEn a.committee b.committee ≤ 0)) := by
  refine ⟨sortRecords_perm _ l, ?_⟩
  have hs := sortRecords_sorted localeCompareEn localeCompareEn_total localeCompareEn_trans l
  refine hs.imp ?_
  intro a b hab
  by_cases ha : a.isoDate = ""
  · by_cases hb : b.isoDate = ""
    · refine Or.inr (Or.inr ⟨ha, hb, ?_⟩)
      rw [senComparator_both_empty ha hb] at hab
      exact hab
    · exfalso
      rw [senComparator_empty_nonempty ha hb] at hab
      omega
  · by_cases hb : b.isoDate = ""
    · exact Or.inr (Or.inl ⟨ha, hb⟩)
    · exact Or.inl ⟨ha, hb, (senComparator_le_iff ha hb).mp hab⟩

/-- Claim C9: decoration is idempotent on every record list —
`isoDate` is filled only when absent (`record.isoDate || toIso(...)`)
and `searchText` is recomputed from fields decoration never changes, so
a second pass reproduces the first. -/
theorem decorateRecords_idempotent (records : List SenRecord) :
    decorateRecords (decorateRecords records) = decorateRecords records := by
  unfold decorateRecords
  rw [List.map_map]
  exact List.map_congr_left (fun r _ => decorateRecord_idem r)

/-- Claim C10: when the run timestamp is nonempty (as
`new Date().toISOString()` always is), every merged output record has
nonempty `committee`, `time`, `firstSeenAt` and `lastSeenAt`; and an
input record whose committee normalizes to empty or whose time
canonicalizes to empty is silently dropped from the merge — removing it
from the current scrape or from the previous history leaves the output
unchanged. -/
theorem merge_nonempty_and_silent_omission (env : JsEnv)
    (current previous c1 c2 p1 p2 : List SenRecord) (r : SenRecord)
    (hnow : env.now ≠ "")
    (hr : norm r.committee = "" ∨ parseClock r.time = "") :
    (∀ v ∈ mergeSenateHistory env current previous,
        v.committee ≠ "" ∧ v.time ≠ "" ∧ v.firstSeenAt ≠ "" ∧ v.lastSeenAt ≠ "") ∧
    mergeSenateHistory env (c1 ++ r :: c2) previous =
      mergeSenateHistory env (c1 ++ c2) previous ∧
    mergeSenateHistory env current (p1 ++ r :: p2) =
      mergeSenateHistory env current (p1 ++ p2) :=
  ⟨merge_nonempty env current previous hnow,
   merge_omit_current env c1 c2 previous r (ingestKey_of_guard hr),
   merge_omit_previous env current p1 p2 r (ingestKey_of_guard hr)⟩

/-- Claim C10 witness: the theorem instantiated with `envUTC`,
`noCommitteeRec` as the dropped record, and the `currRec`/`prevRec`
inputs. -/
theorem merge_nonempty_and_silent_omission_witness :
    (∀ v ∈ mergeSenateHistory envUTC [currRec] [prevRec],
        v.committee ≠ "" ∧ v.time ≠ "" ∧ v.firstSeenAt ≠ "" ∧ v.lastSeenAt ≠ "") ∧
    mergeSenateHistory envUTC ([] ++ noCommitteeRec :: []) [prevRec] =
      mergeSenateHistory envUTC ([] ++ []) [prevRec] ∧
    mergeSenateHistory envUTC [currRec] ([] ++ noCommitteeRec :: []) =
      mergeSenateHistory envUTC [currRec] ([] ++ []) :=
  merge_nonempty_and_silent_omission envUTC [currRec] [prevRec] [] [] [] []
    noCommitteeRec (by decide) (Or.inl (by decide))
